import Mathlib

/-!
# A shallow embedding of `backtrack.h`

The class template `BackTrack<Item, Iterator>` is embedded with

* `Item` taken to be `Int`, and the virtual `Succ` taken with the body it has in the source, the
  increment `(*Start)++` (no class of the source overrides it);
* an `Iterator` taken to be an `Int` position into a buffer memory `Int → Int`, so that
  `End - 1`, `Last--`, `Last + 1` and `End++` are integer arithmetic on positions and a slot
  outside the caller's range is still a slot of the memory;
* the pure virtual `IsValid (Start, End)` taken to be a field of the engine, a function of the
  buffer memory and of the two positions (`onSlots` builds the predicates that look at the
  slots of `[Start, End)` only);
* the three `while` loops run on fuel, a run that exhausts its fuel returning `none`
  (`Search_mono`: more fuel never changes what a run returns);
* every slot access and every call of `IsValid` and `Succ` recorded, in order, in a log.

The definitions come first: the embedding of the source, a few example engines, then the
predicates and measures the proofs speak of. The theorems follow, the claims `C1 .. C17` last.
-/

namespace BackTrack

/-- The enum `SolutionType {FirstSolution, NextSolution}`. -/
inductive SolutionType where
  | FirstSolution
  | NextSolution
  deriving DecidableEq

/-- Buffer memory: the Item held at every iterator position. -/
abbrev Mem := Int → Int

/-- The memory after the assignment `*p = v`. -/
def poke (m : Mem) (p v : Int) : Mem := fun q => if q = p then v else m q

/-- What the engine does to the outside world: slot reads, slot writes, and the calls of the two
customization points (`succ p v` is a call `Succ (p)` made while slot `p` holds `v`). -/
inductive Event where
  | read (p : Int)
  | write (p : Int)
  | isValid (s e : Int)
  | succ (p v : Int)
  deriving DecidableEq

/-- The buffer memory together with the log of what has been done so far, oldest first. -/
structure Machine where
  mem : Mem
  log : List Event

/-- Record an event without touching the memory. -/
def Machine.note (st : Machine) (e : Event) : Machine :=
  { mem := st.mem, log := st.log ++ [e] }

/-- The assignment `*p = v`, recorded as a write. -/
def Machine.store (st : Machine) (p v : Int) : Machine :=
  { mem := poke st.mem p v, log := st.log ++ [Event.write p] }

end BackTrack

/-- The class `BackTrack`: the two members `FirstValue`, `LastValue` set by the constructor and
the pure virtual `IsValid (Start, End)`. -/
structure BackTrack where
  FirstValue : Int
  LastValue : Int
  IsValid : BackTrack.Mem → Int → Int → Bool

namespace BackTrack

/-- The default `virtual void Succ (Iterator Start) {(*Start)++;}`. -/
def Succ (st : Machine) (Start : Int) : Machine :=
  { mem := poke st.mem Start (st.mem Start + 1),
    log := st.log ++ [Event.succ Start (st.mem Start)] }

/-- The loop `while (Last != Start && *Last == LastValue) Last--;` of `GotoUnvisitedNode`;
`*Last` is read only when `Last != Start`. Returns the final `Last`. -/
def backUp (bt : BackTrack) (Start : Int) : Nat → Int → Machine → Option (Int × Machine)
  | 0, _, _ => none
  | fuel + 1, Last, st =>
    if Last ≠ Start then
      if st.mem Last = bt.LastValue then
        backUp bt Start fuel (Last - 1) (st.note (Event.read Last))
      else some (Last, st.note (Event.read Last))
    else some (Last, st)

/-- `GotoUnvisitedNode (Start, End, Found)`: returns the machine, the new `End` and `Found`. -/
def GotoUnvisitedNode (bt : BackTrack) (fuel : Nat) (Start End : Int) (st : Machine) :
    Option (Machine × Int × Bool) :=
  match backUp bt Start fuel (End - 1) st with
  | none => none
  | some (Last, st1) =>
    let st2 := st1.note (Event.read Last)
    if st2.mem Last ≠ bt.LastValue then some (Succ st2 Last, Last + 1, true)
    else some (st2, Last + 1, false)

/-- `NextValidValue (Start, End, Valid)`: returns the machine and `Valid`. One unit of fuel is
one turn of `while (CheckNode)`. -/
def NextValidValue (bt : BackTrack) (Start End : Int) : Nat → Machine → Option (Machine × Bool)
  | 0, _ => none
  | fuel + 1, st =>
    let st1 := st.note (Event.isValid Start End)
    if bt.IsValid st1.mem Start End then some (st1, true)
    else
      let st2 := st1.note (Event.read (End - 1))
      if st2.mem (End - 1) ≠ bt.LastValue then NextValidValue bt Start End fuel (Succ st2 (End - 1))
      else some (st2, false)

/-- The loop `while (SolutionValid) { ... }` of `operator()` followed by `Valid = SolutionValid`.
`inner` is the fuel handed to each call of `NextValidValue` and `GotoUnvisitedNode`; one unit of
the recursion fuel is one evaluation of the loop condition. -/
def searchLoop (bt : BackTrack) (inner : Nat) (Start SolutionEnd : Int) :
    Nat → Machine → Int → Bool → Option (Machine × Bool)
  | 0, _, _, _ => none
  | fuel + 1, st, End, SolutionValid =>
    if SolutionValid then
      match NextValidValue bt Start End inner st with
      | none => none
      | some (st1, true) =>
        if End = SolutionEnd then some (st1, true)
        else searchLoop bt inner Start SolutionEnd fuel (st1.store End bt.FirstValue) (End + 1) true
      | some (st1, false) =>
        match GotoUnvisitedNode bt inner Start End st1 with
        | none => none
        | some (st2, End2, Found) => searchLoop bt inner Start SolutionEnd fuel st2 End2 Found
    else some (st, false)

/-- The member `operator() (Start, End, Type, Valid)`: returns the machine and `Valid`. -/
def Search (bt : BackTrack) (fuel : Nat) (Start End : Int) (type : SolutionType)
    (st : Machine) : Option (Machine × Bool) :=
  if Start ≥ End then some (st, false)
  else
    match type with
    | SolutionType.FirstSolution =>
      searchLoop bt fuel Start End fuel (st.store Start bt.FirstValue) Start true
    | SolutionType.NextSolution =>
      match GotoUnvisitedNode bt fuel Start End st with
      | none => none
      | some (st1, End1, Found) => searchLoop bt fuel Start End fuel st1 End1 Found

/-- The slots `[Start, Start + n)` of a memory, as a list. -/
def slots (m : Mem) (Start : Int) (n : Nat) : List Int :=
  (List.range n).map (fun (i : Nat) => m (Start + (i : Int)))

/-- A validity predicate that looks at the slots of `[Start, End)` only. -/
def onSlots (P : List Int → Bool) : Mem → Int → Int → Bool :=
  fun m s e => P (slots m s (e - s).toNat)

/-- A machine whose buffer holds the list `l` from position `0` on (and `0` elsewhere), with an
empty log. -/
def Machine.ofList (l : List Int) : Machine :=
  { mem := fun q => if 0 ≤ q then l.getD q.toNat 0 else 0, log := [] }

/-! ## Example engines -/

/-- Values `0 .. 2`, a range being accepted when its slots are pairwise distinct. -/
def exDistinct : BackTrack := ⟨0, 2, onSlots (fun l => decide l.Nodup)⟩

/-- Values `0 .. 2`, the only accepted lists being the empty one and `[0, 1]`. -/
def exOnly01 : BackTrack := ⟨0, 2, onSlots (fun l => decide (l = [] ∨ l = [0, 1]))⟩

/-- Values `0 .. 1`, the only accepted lists being the empty one and `[1]`. -/
def exLastOnly : BackTrack := ⟨0, 1, onSlots (fun l => decide (l = [] ∨ l = [1]))⟩

/-- Values `0 .. 1`, a range being accepted when its last slot does not hold `1`. -/
def exNoLast : BackTrack := ⟨0, 1, fun m _ e => decide (m (e - 1) ≠ 1)⟩

/-- Values `0 .. 1`, a range being accepted when its slots are pairwise distinct. -/
def exBinary : BackTrack := ⟨0, 1, onSlots (fun l => decide l.Nodup)⟩

/-- The single value `0` (`First = Last = 0`), every list being accepted. -/
def exSingle : BackTrack := ⟨0, 0, onSlots (fun _ => true)⟩

/-! ## The caller's protocol, and the predicates and measures of the proofs -/

/-- Every slot from `Start` on that lies before `End`, or at a position singled out by `Q`, holds
a value between `FirstValue` and `LastValue`. -/
def Within (bt : BackTrack) (Q : Int → Prop) (Start End : Int) (m : Mem) : Prop :=
  ∀ i, Start ≤ i → (i < End ∨ Q i) → bt.FirstValue ≤ m i ∧ m i ≤ bt.LastValue

/-- Number of values of the domain `FirstValue .. LastValue`. -/
def domainSize (bt : BackTrack) : Nat := (bt.LastValue - bt.FirstValue + 1).toNat

/-- Number of nodes of the complete search tree of height `r` with `d` values per slot. -/
def treeSize (d : Nat) : Nat → Nat
  | 0 => 1
  | r + 1 => 1 + d * treeSize d r

/-- Number of nodes in the subtrees rooted at the right siblings of the first `l` slots: slot `i`
of a range of length `n` has `LastValue - m (Start + i)` right siblings, each the root of a tree
of height `n - 1 - i`. -/
def pending (bt : BackTrack) (m : Mem) (Start : Int) (n : Nat) : Nat → Nat
  | 0 => 0
  | l + 1 => pending bt m Start n l
      + (bt.LastValue - m (Start + (l : Int))).toNat * treeSize (domainSize bt) (n - 1 - l)

/-- Number of nodes of the search tree of a range of length `n` still ahead of the loop state
`(m, End)` in depth-first order, the current node included. -/
def todo (bt : BackTrack) (Start : Int) (n : Nat) (m : Mem) (End : Int) : Nat :=
  treeSize (domainSize bt) (n - (End - Start).toNat) + pending bt m Start n (End - Start).toNat

/-- The machine a `FirstSolution` search is in when it reaches depth one, the empty range
`[Start, Start)` having been accepted: `*Start = FirstValue`, the check of the empty range, and
the leftmost child `*(End++) = FirstValue`. -/
def firstChild (bt : BackTrack) (Start : Int) (st : Machine) : Machine :=
  (((st.store Start bt.FirstValue).note (Event.isValid Start Start)).store Start bt.FirstValue)

/-- The assignment `b` agrees with the memory on `[Start, End)`. -/
def Agree (Start End : Int) (m b : Mem) : Prop :=
  ∀ i, Start ≤ i → i < End → b i = m i

/-- The assignment `b` is lexicographically beyond the slots `[Start, End)` of the memory: it
agrees up to some slot `j` of the range, where it is greater. -/
def Beyond (Start End : Int) (m b : Mem) : Prop :=
  ∃ j, Start ≤ j ∧ j < End ∧ (∀ i, Start ≤ i → i < j → b i = m i) ∧ m j < b j

/-- The assignment `b` has not been passed over by a search standing at `(m, End)`. -/
def Ahead (Start End : Int) (m b : Mem) : Prop :=
  Agree Start End m b ∨ Beyond Start End m b

/-- An assignment the search cannot prune: every slot of `[Start, SolutionEnd)` is within range
and every non-empty range `[Start, E)` holding its slots is accepted. -/
def Viable (bt : BackTrack) (Start SolutionEnd : Int) (b : Mem) : Prop :=
  (∀ i, Start ≤ i → i < SolutionEnd → bt.FirstValue ≤ b i ∧ b i ≤ bt.LastValue) ∧
    ∀ (E : Int) (m : Mem), Start < E → E ≤ SolutionEnd → Agree Start E m b →
      bt.IsValid m Start E = true

/-- A memory holding the list `a` from position `Start` on. -/
def memOf (Start : Int) (a : List Int) : Mem := fun q => a.getD (q - Start).toNat 0

/-- The caller's enumeration protocol (the source has no driver of its own; its comment on
`operator()` reads "Repeated calls will find all solutions"): one call of `operator()` in the
given mode, then `NextSolution` calls on the same buffer until `Valid = false`. Returns the
buffers `[Start, End)` that came back with `Valid = true`, in order; `calls` bounds the number
of calls made. -/
def enumerate (bt : BackTrack) (fuel : Nat) (Start End : Int) :
    Nat → SolutionType → Machine → Option (List (List Int))
  | 0, _, _ => none
  | calls + 1, type, st =>
    match Search bt fuel Start End type st with
    | none => none
    | some (_, false) => some []
    | some (st1, true) =>
      (enumerate bt fuel Start End calls SolutionType.NextSolution st1).map
        (fun found => slots st1.mem Start (End - Start).toNat :: found)

/-- A full-length solution: `n` slots, each between `First` and `Last`, accepted by `P`. -/
def Solution (First Last : Int) (P : List Int → Bool) (n : Nat) (a : List Int) : Prop :=
  a.length = n ∧ (∀ x ∈ a, First ≤ x ∧ x ≤ Last) ∧ P a = true

/-- Every call of `Succ` recorded in the log was made on a slot holding a value `x` with
`FirstValue ≤ x < LastValue`. -/
def SuccInRange (bt : BackTrack) (log : List Event) : Prop :=
  ∀ p x, Event.succ p x ∈ log → bt.FirstValue ≤ x ∧ x < bt.LastValue

/-- The predicate of the engine depends only on the slots of the range `[Start, E)` it is
given: two memories that agree on the range get the same answer. -/
def RangeOnly (bt : BackTrack) (Start : Int) : Prop :=
  ∀ (m m' : Mem) (E : Int), (∀ i, Start ≤ i → i < E → m i = m' i) →
    bt.IsValid m Start E = bt.IsValid m' Start E

/-- The machine the backing-up loop of `GotoUnvisitedNode` has reached after at most `fuel`
turns, whether or not the loop has ended by then. -/
def backUpReached (bt : BackTrack) (Start : Int) : Nat → Int → Machine → Machine
  | 0, _, st => st
  | fuel + 1, Last, st =>
    if Last ≠ Start then
      if st.mem Last = bt.LastValue then
        backUpReached bt Start fuel (Last - 1) (st.note (Event.read Last))
      else st.note (Event.read Last)
    else st

/-- The machine `GotoUnvisitedNode` has reached when it returns or when its loop runs out of
fuel. -/
def GotoUnvisitedNodeReached (bt : BackTrack) (fuel : Nat) (Start End : Int) (st : Machine) :
    Machine :=
  match backUp bt Start fuel (End - 1) st with
  | none => backUpReached bt Start fuel (End - 1) st
  | some (Last, st1) =>
    let st2 := st1.note (Event.read Last)
    if st2.mem Last ≠ bt.LastValue then Succ st2 Last else st2

/-- The machine `NextValidValue` has reached after at most `fuel` turns of its loop, whether or
not the loop has ended by then. -/
def NextValidValueReached (bt : BackTrack) (Start End : Int) : Nat → Machine → Machine
  | 0, st => st
  | fuel + 1, st =>
    let st1 := st.note (Event.isValid Start End)
    if bt.IsValid st1.mem Start End then st1
    else
      let st2 := st1.note (Event.read (End - 1))
      if st2.mem (End - 1) ≠ bt.LastValue then
        NextValidValueReached bt Start End fuel (Succ st2 (End - 1))
      else st2

/-- The machine the driving loop of `operator()` has reached after at most `fuel` turns, an
inner loop that runs out of its fuel `inner` ending the run where it stands. -/
def searchLoopReached (bt : BackTrack) (inner : Nat) (Start SolutionEnd : Int) :
    Nat → Machine → Int → Bool → Machine
  | 0, st, _, _ => st
  | fuel + 1, st, End, SolutionValid =>
    if SolutionValid then
      match NextValidValue bt Start End inner st with
      | none => NextValidValueReached bt Start End inner st
      | some (st1, true) =>
        if End = SolutionEnd then st1
        else searchLoopReached bt inner Start SolutionEnd fuel (st1.store End bt.FirstValue)
          (End + 1) true
      | some (st1, false) =>
        match GotoUnvisitedNode bt inner Start End st1 with
        | none => GotoUnvisitedNodeReached bt inner Start End st1
        | some (st2, End2, Found) =>
          searchLoopReached bt inner Start SolutionEnd fuel st2 End2 Found
    else st

/-- The machine a call of `operator()` has reached when it returns or when it runs out of
fuel. -/
def SearchReached (bt : BackTrack) (fuel : Nat) (Start End : Int) (type : SolutionType)
    (st : Machine) : Machine :=
  if Start ≥ End then st
  else
    match type with
    | SolutionType.FirstSolution =>
      searchLoopReached bt fuel Start End fuel (st.store Start bt.FirstValue) Start true
    | SolutionType.NextSolution =>
      match GotoUnvisitedNode bt fuel Start End st with
      | none => GotoUnvisitedNodeReached bt fuel Start End st
      | some (st1, End1, Found) => searchLoopReached bt fuel Start End fuel st1 End1 Found

/-- The event stays within the caller's range `[Start, End)`: a slot that is read, written or
handed to `Succ` is a slot of the range, and a range handed to `IsValid` starts at `Start` and
ends at or before `End`. -/
def Event.inside (Start End : Int) : Event → Prop
  | Event.read p => Start ≤ p ∧ p < End
  | Event.write p => Start ≤ p ∧ p < End
  | Event.isValid s e => s = Start ∧ Start ≤ e ∧ e ≤ End
  | Event.succ p _ => Start ≤ p ∧ p < End

/-- Every event of the log stays within the caller's range. -/
def Inside (Start End : Int) (log : List Event) : Prop :=
  ∀ e ∈ log, e.inside Start End

/-! ## Memory and log bookkeeping -/

@[simp] theorem note_mem (st : Machine) (e : Event) : (st.note e).mem = st.mem := rfl

@[simp] theorem note_log (st : Machine) (e : Event) : (st.note e).log = st.log ++ [e] := rfl

@[simp] theorem store_mem (st : Machine) (p v : Int) : (st.store p v).mem = poke st.mem p v := rfl

@[simp] theorem store_log (st : Machine) (p v : Int) :
    (st.store p v).log = st.log ++ [Event.write p] := rfl

@[simp] theorem Succ_mem (st : Machine) (p : Int) :
    (Succ st p).mem = poke st.mem p (st.mem p + 1) := rfl

@[simp] theorem Succ_log (st : Machine) (p : Int) :
    (Succ st p).log = st.log ++ [Event.succ p (st.mem p)] := rfl

@[simp] theorem poke_same (m : Mem) (p v : Int) : poke m p v p = v := by simp [poke]

theorem poke_other (m : Mem) (p v : Int) {q : Int} (h : q ≠ p) : poke m p v q = m q := by
  simp [poke, h]

@[simp] theorem poke_self (m : Mem) (p : Int) : poke m p (m p) = m := by
  funext q
  by_cases h : q = p
  · subst h; simp
  · simp [poke, h]

@[simp] theorem poke_poke (m : Mem) (p v w : Int) : poke (poke m p v) p w = poke m p w := by
  funext q
  by_cases h : q = p
  · subst h; simp
  · simp [poke, h]

/-! ## What the two sub-algorithms do to the memory -/

/-- Effect of `NextValidValue` on the memory when it returns: the last slot has moved up from its
value `v` to some `w`, every value passed over was rejected and was not `LastValue`. -/
theorem NextValidValue_spec (bt : BackTrack) (Start End : Int) :
    ∀ (fuel : Nat) (st st1 : Machine) (b : Bool),
      NextValidValue bt Start End fuel st = some (st1, b) →
        ∃ w, st.mem (End - 1) ≤ w ∧ st1.mem = poke st.mem (End - 1) w ∧
          (∀ u, st.mem (End - 1) ≤ u → u < w →
            u ≠ bt.LastValue ∧ bt.IsValid (poke st.mem (End - 1) u) Start End = false) ∧
          (b = true → bt.IsValid st1.mem Start End = true) ∧
          (b = false → w = bt.LastValue ∧ bt.IsValid st1.mem Start End = false) := by
  intro fuel
  induction fuel with
  | zero => intro st st1 b h; simp [NextValidValue] at h
  | succ k ih =>
    intro st st1 b h
    simp only [NextValidValue, note_mem] at h
    split_ifs at h with h1 h2
    · simp only [Option.some.injEq, Prod.mk.injEq] at h
      obtain ⟨rfl, rfl⟩ := h
      exact ⟨st.mem (End - 1), le_refl _, by simp, fun u hu hw => absurd hw (not_lt.mpr hu),
        fun _ => h1, fun hb => by simp at hb⟩
    · obtain ⟨w, hw1, hw2, hw3, hw4, hw5⟩ := ih _ _ _ h
      simp only [Succ_mem, note_mem, poke_same, poke_poke] at hw1 hw2 hw3
      refine ⟨w, by omega, hw2, ?_, hw4, hw5⟩
      intro u hu huw
      by_cases hc : u = st.mem (End - 1)
      · subst hc
        exact ⟨h2, by simpa using h1⟩
      · exact hw3 u (by omega) huw
    · simp only [Option.some.injEq, Prod.mk.injEq] at h
      obtain ⟨rfl, rfl⟩ := h
      push_neg at h2
      exact ⟨st.mem (End - 1), le_refl _, by simp, fun u hu hw => absurd hw (not_lt.mpr hu),
        fun hb => by simp at hb, fun _ => ⟨h2, by simpa using h1⟩⟩

/-- Effect of the backing-up loop when it returns. -/
theorem backUp_spec (bt : BackTrack) (Start : Int) :
    ∀ (fuel : Nat) (Last : Int) (st : Machine) (j : Int) (st1 : Machine),
      backUp bt Start fuel Last st = some (j, st1) →
        st1.mem = st.mem ∧ j ≤ Last ∧
          (∀ i, j < i → i ≤ Last → st.mem i = bt.LastValue) ∧
          (j ≠ Start → st.mem j ≠ bt.LastValue) ∧ (Start ≤ Last → Start ≤ j) := by
  intro fuel
  induction fuel with
  | zero => intro Last st j st1 h; simp [backUp] at h
  | succ k ih =>
    intro Last st j st1 h
    simp only [backUp] at h
    split_ifs at h with h1 h2
    · obtain ⟨e1, e2, e3, e4, e5⟩ := ih _ _ _ _ h
      simp only [note_mem] at e1 e3 e4
      refine ⟨e1, by omega, ?_, e4, fun hs => e5 (by omega)⟩
      intro i hi1 hi2
      by_cases hc : i = Last
      · subst hc; exact h2
      · exact e3 i hi1 (by omega)
    · simp only [Option.some.injEq, Prod.mk.injEq] at h
      obtain ⟨rfl, rfl⟩ := h
      exact ⟨rfl, le_refl _, fun i hi1 hi2 => by omega, fun _ => h2, fun hs => hs⟩
    · simp only [Option.some.injEq, Prod.mk.injEq] at h
      obtain ⟨rfl, rfl⟩ := h
      push_neg at h1
      exact ⟨rfl, le_refl _, fun i hi1 hi2 => by omega, fun hc => absurd h1 hc,
        fun _ => by omega⟩

/-- Effect of `GotoUnvisitedNode` when it returns. -/
theorem GotoUnvisitedNode_spec (bt : BackTrack) (fuel : Nat) (Start End : Int)
    (st st2 : Machine) (End2 : Int) (Found : Bool)
    (h : GotoUnvisitedNode bt fuel Start End st = some (st2, End2, Found)) :
    End2 ≤ End ∧ (Start < End → Start < End2) ∧
      (∀ i, End2 ≤ i → i < End → st.mem i = bt.LastValue) ∧
      (Found = true → st.mem (End2 - 1) ≠ bt.LastValue ∧
        st2.mem = poke st.mem (End2 - 1) (st.mem (End2 - 1) + 1)) ∧
      (Found = false → st.mem (End2 - 1) = bt.LastValue ∧ st2.mem = st.mem ∧
        (Start < End → End2 = Start + 1)) := by
  unfold GotoUnvisitedNode at h
  cases hb : backUp bt Start fuel (End - 1) st with
  | none => simp [hb] at h
  | some r =>
    obtain ⟨j, st1⟩ := r
    obtain ⟨e1, e2, e3, e4, e5⟩ := backUp_spec bt Start fuel _ _ _ _ hb
    simp only [hb, note_mem, e1] at h
    split_ifs at h with h1
    · simp only [Option.some.injEq, Prod.mk.injEq] at h
      obtain ⟨rfl, rfl, rfl⟩ := h
      refine ⟨by omega, fun hs => by have := e5 (by omega); omega,
        fun i hi1 hi2 => e3 i (by omega) (by omega), ?_, fun hb => by simp at hb⟩
      intro _
      simp only [add_sub_cancel_right, Succ_mem, note_mem, e1]
      exact ⟨h1, trivial⟩
    · simp only [Option.some.injEq, Prod.mk.injEq] at h
      obtain ⟨rfl, rfl, rfl⟩ := h
      push_neg at h1
      refine ⟨by omega, fun hs => by have := e5 (by omega); omega,
        fun i hi1 hi2 => e3 i (by omega) (by omega), fun hb => by simp at hb, ?_⟩
      intro _
      simp only [add_sub_cancel_right, note_mem, e1]
      refine ⟨h1, trivial, fun hs => ?_⟩
      by_contra hc
      exact e4 (fun hj => hc (by omega)) h1

/-! ## A proof rule for the driving loop -/

/-- Hoare-style rule for `searchLoop`: a precondition `Pre` on the loop state that every turn of
the loop re-establishes yields the postcondition `Post` on whatever the loop returns. -/
theorem searchLoop_rule (bt : BackTrack) (inner : Nat) (Start SolutionEnd : Int)
    (Pre : Machine → Int → Bool → Prop) (Post : Machine → Bool → Prop)
    (hfalse : ∀ st End, Pre st End false → Post st false)
    (hdone : ∀ st st1, Pre st SolutionEnd true →
      NextValidValue bt Start SolutionEnd inner st = some (st1, true) → Post st1 true)
    (hdesc : ∀ st End st1, Pre st End true →
      NextValidValue bt Start End inner st = some (st1, true) → End ≠ SolutionEnd →
        Pre (st1.store End bt.FirstValue) (End + 1) true)
    (hback : ∀ st End st1 st2 End2 Found, Pre st End true →
      NextValidValue bt Start End inner st = some (st1, false) →
      GotoUnvisitedNode bt inner Start End st1 = some (st2, End2, Found) →
        Pre st2 End2 Found) :
    ∀ (fuel : Nat) (st : Machine) (End : Int) (sv : Bool) (st' : Machine) (b : Bool),
      Pre st End sv → searchLoop bt inner Start SolutionEnd fuel st End sv = some (st', b) →
        Post st' b := by
  intro fuel
  induction fuel with
  | zero => intro st End sv st' b _ h; simp [searchLoop] at h
  | succ k ih =>
    intro st End sv st' b hpre h
    cases sv with
    | false =>
      simp only [searchLoop, Bool.false_eq_true, if_false, Option.some.injEq,
        Prod.mk.injEq] at h
      obtain ⟨rfl, rfl⟩ := h
      exact hfalse _ _ hpre
    | true =>
      simp only [searchLoop, if_true] at h
      cases hn : NextValidValue bt Start End inner st with
      | none => simp [hn] at h
      | some r =>
        obtain ⟨st1, v⟩ := r
        cases v with
        | true =>
          simp only [hn] at h
          split_ifs at h with he
          · simp only [Option.some.injEq, Prod.mk.injEq] at h
            obtain ⟨rfl, rfl⟩ := h
            subst he
            exact hdone _ _ hpre hn
          · exact ih _ _ _ _ _ (hdesc _ _ _ hpre hn he) h
        | false =>
          simp only [hn] at h
          cases hg : GotoUnvisitedNode bt inner Start End st1 with
          | none => simp [hg] at h
          | some r2 =>
            obtain ⟨st2, End2, Found⟩ := r2
            simp only [hg] at h
            exact ih _ _ _ _ _ (hback _ _ _ _ _ _ hpre hn hg) h

/-- The same rule for `operator()` on a non-empty range: `Pre` has to hold of the state the mode
sets up. -/
theorem Search_rule (bt : BackTrack) (fuel : Nat) (Start End : Int) (type : SolutionType)
    (st : Machine) (hne : Start < End)
    (Pre : Machine → Int → Bool → Prop) (Post : Machine → Bool → Prop)
    (hfirst : type = SolutionType.FirstSolution →
      Pre (st.store Start bt.FirstValue) Start true)
    (hnext : type = SolutionType.NextSolution → ∀ st1 End1 Found,
      GotoUnvisitedNode bt fuel Start End st = some (st1, End1, Found) → Pre st1 End1 Found)
    (hfalse : ∀ st End, Pre st End false → Post st false)
    (hdone : ∀ st st1, Pre st End true →
      NextValidValue bt Start End fuel st = some (st1, true) → Post st1 true)
    (hdesc : ∀ st E st1, Pre st E true →
      NextValidValue bt Start E fuel st = some (st1, true) → E ≠ End →
        Pre (st1.store E bt.FirstValue) (E + 1) true)
    (hback : ∀ st E st1 st2 End2 Found, Pre st E true →
      NextValidValue bt Start E fuel st = some (st1, false) →
      GotoUnvisitedNode bt fuel Start E st1 = some (st2, End2, Found) →
        Pre st2 End2 Found)
    (st' : Machine) (b : Bool) (h : Search bt fuel Start End type st = some (st', b)) :
    Post st' b := by
  unfold Search at h
  rw [if_neg (by omega)] at h
  cases type with
  | FirstSolution =>
    exact searchLoop_rule bt fuel Start End Pre Post hfalse hdone hdesc hback _ _ _ _ _ _
      (hfirst rfl) h
  | NextSolution =>
    simp only at h
    cases hg : GotoUnvisitedNode bt fuel Start End st with
    | none => simp [hg] at h
    | some r =>
      obtain ⟨st1, End1, Found⟩ := r
      simp only [hg] at h
      exact searchLoop_rule bt fuel Start End Pre Post hfalse hdone hdesc hback _ _ _ _ _ _
        (hnext rfl _ _ _ hg) h

/-! ## Enough fuel: the two sub-algorithms return -/

/-- With the walk starting at or after `Start`, the backing-up loop returns within
`Last - Start + 1` turns. -/
theorem backUp_total (bt : BackTrack) (Start : Int) :
    ∀ (fuel : Nat) (Last : Int) (st : Machine), Start ≤ Last → (Last - Start).toNat < fuel →
      ∃ r, backUp bt Start fuel Last st = some r := by
  intro fuel
  induction fuel with
  | zero => intro Last st _ h; omega
  | succ k ih =>
    intro Last st h1 h2
    simp only [backUp]
    split_ifs with h3 h4
    · exact ih _ _ (by omega) (by omega)
    · exact ⟨_, rfl⟩
    · exact ⟨_, rfl⟩

/-- On a non-empty range `GotoUnvisitedNode` returns, given `End - Start` units of fuel. -/
theorem GotoUnvisitedNode_total (bt : BackTrack) (fuel : Nat) (Start End : Int) (st : Machine)
    (hne : Start < End) (hf : (End - Start).toNat ≤ fuel) :
    ∃ r, GotoUnvisitedNode bt fuel Start End st = some r := by
  obtain ⟨⟨j, st1⟩, hr⟩ := backUp_total bt Start fuel (End - 1) st (by omega) (by omega)
  unfold GotoUnvisitedNode
  simp only [hr]
  split_ifs
  · exact ⟨_, rfl⟩
  · exact ⟨_, rfl⟩

/-- With the last slot at or below `LastValue`, `NextValidValue` returns within
`LastValue - v + 1` turns. -/
theorem NextValidValue_total (bt : BackTrack) (Start End : Int) :
    ∀ (fuel : Nat) (st : Machine), st.mem (End - 1) ≤ bt.LastValue →
      (bt.LastValue - st.mem (End - 1)).toNat < fuel →
        ∃ r, NextValidValue bt Start End fuel st = some r := by
  intro fuel
  induction fuel with
  | zero => intro st _ h; omega
  | succ k ih =>
    intro st h1 h2
    simp only [NextValidValue, note_mem]
    split_ifs with h3 h4
    · exact ⟨_, rfl⟩
    · refine ih _ ?_ ?_
      · simp only [Succ_mem, note_mem, poke_same]; omega
      · simp only [Succ_mem, note_mem, poke_same]; omega
    · exact ⟨_, rfl⟩

/-- `NextValidValue` entered on an accepted range returns at once, leaving the memory alone. -/
theorem NextValidValue_accepted (bt : BackTrack) (Start End : Int) (fuel : Nat) (st : Machine)
    (hv : bt.IsValid st.mem Start End = true) :
    NextValidValue bt Start End (fuel + 1) st
      = some (st.note (Event.isValid Start End), true) := by
  simp [NextValidValue, hv]

/-- A last slot at or below `LastValue` is still so after `NextValidValue`. -/
theorem NextValidValue_le (bt : BackTrack) (Start End : Int) (fuel : Nat) (st st1 : Machine)
    (b : Bool) (h : NextValidValue bt Start End fuel st = some (st1, b))
    (hv : st.mem (End - 1) ≤ bt.LastValue) : st1.mem (End - 1) ≤ bt.LastValue := by
  obtain ⟨w, hw1, hw2, hw3, -, -⟩ := NextValidValue_spec bt Start End fuel st st1 b h
  rw [hw2, poke_same]
  by_contra hc
  exact (hw3 bt.LastValue hv (by omega)).1 rfl

/-! ## Lists of slots and the lexicographic order -/

@[simp] theorem slots_length (m : Mem) (Start : Int) (n : Nat) : (slots m Start n).length = n := by
  simp [slots]

theorem slots_succ (m : Mem) (Start : Int) (n : Nat) :
    slots m Start (n + 1) = m Start :: slots m (Start + 1) n := by
  simp only [slots, List.range_succ_eq_map, List.map_cons, List.map_map]
  refine congrArg₂ _ (by simp) (List.map_congr_left fun i _ => ?_)
  simp only [Function.comp_apply, Nat.succ_eq_add_one, Nat.cast_add, Nat.cast_one]
  congr 1
  omega

theorem slots_congr (m m' : Mem) (Start : Int) (n : Nat)
    (h : ∀ i, Start ≤ i → i < Start + n → m i = m' i) : slots m Start n = slots m' Start n := by
  refine List.map_congr_left fun i hi => ?_
  have := List.mem_range.mp hi
  exact h _ (by omega) (by omega)

theorem slots_getElem (m : Mem) (Start : Int) (n i : Nat) (h : i < (slots m Start n).length) :
    (slots m Start n)[i] = m (Start + i) := by
  simp [slots]

/-- Two memories that agree on `[Start, j)` and have `m j < m' j` with `j` in the range hold
lexicographically ordered lists of slots. -/
theorem slots_lex (m m' : Mem) :
    ∀ (n : Nat) (Start j : Int), Start ≤ j → j < Start + n →
      (∀ i, Start ≤ i → i < j → m i = m' i) → m j < m' j →
        List.Lex (· < ·) (slots m Start n) (slots m' Start n) := by
  intro n
  induction n with
  | zero => intro Start j h1 h2; omega
  | succ k ih =>
    intro Start j h1 h2 h3 h4
    rw [slots_succ, slots_succ]
    by_cases hj : j = Start
    · subst hj
      exact List.Lex.rel h4
    · rw [h3 Start (le_refl _) (by omega)]
      exact List.Lex.cons (ih (Start + 1) j (by omega) (by push_cast at h2; omega)
        (fun i hi1 hi2 => h3 i (by omega) hi2) h4)

/-! ## The range invariant -/

theorem Within_NextValidValue (bt : BackTrack) (Q : Int → Prop) (Start End : Int) (fuel : Nat)
    (st st1 : Machine) (b : Bool) (h : NextValidValue bt Start End fuel st = some (st1, b))
    (hw : Within bt Q Start End st.mem) : Within bt Q Start End st1.mem := by
  obtain ⟨w, hw1, hw2, hw3, -, -⟩ := NextValidValue_spec bt Start End fuel st st1 b h
  intro i hi1 hi2
  by_cases hc : i = End - 1
  · subst hc
    have h0 := hw _ hi1 hi2
    have h1 := NextValidValue_le bt Start End fuel st st1 b h h0.2
    rw [hw2, poke_same] at h1 ⊢
    exact ⟨by omega, h1⟩
  · rw [hw2, poke_other _ _ _ hc]
    exact hw i hi1 hi2

theorem Within_store (bt : BackTrack) (Q : Int → Prop) (Start End : Int) (m : Mem)
    (hFL : bt.FirstValue ≤ bt.LastValue) (hw : Within bt Q Start End m) :
    Within bt Q Start (End + 1) (poke m End bt.FirstValue) := by
  intro i hi1 hi2
  by_cases hc : i = End
  · subst hc
    rw [poke_same]
    exact ⟨le_refl _, hFL⟩
  · rw [poke_other _ _ _ hc]
    exact hw i hi1 (hi2.imp (fun h => by omega) id)

theorem Within_GotoUnvisitedNode (bt : BackTrack) (Q : Int → Prop) (fuel : Nat)
    (Start End : Int) (st st2 : Machine) (End2 : Int) (Found : Bool)
    (h : GotoUnvisitedNode bt fuel Start End st = some (st2, End2, Found))
    (hw : Within bt Q Start End st.mem) : Within bt Q Start End2 st2.mem := by
  obtain ⟨g1, -, -, g4, g5⟩ := GotoUnvisitedNode_spec bt fuel Start End st st2 End2 Found h
  intro i hi1 hi2
  have hi3 : i < End ∨ Q i := hi2.imp (fun h => by omega) id
  cases Found with
  | false =>
    rw [(g5 rfl).2.1]
    exact hw i hi1 hi3
  | true =>
    obtain ⟨g6, g7⟩ := g4 rfl
    by_cases hc : i = End2 - 1
    · subst hc
      have h0 := hw _ hi1 (Or.inl (by omega))
      rw [g7, poke_same]
      omega
    · rw [g7, poke_other _ _ _ hc]
      exact hw i hi1 hi3

/-- The range invariant is kept by the driving loop, whatever it returns. -/
theorem searchLoop_within (bt : BackTrack) (inner : Nat) (Start SolutionEnd : Int)
    (Q : Int → Prop) (hFL : bt.FirstValue ≤ bt.LastValue) :
    ∀ (fuel : Nat) (st : Machine) (End : Int) (sv : Bool) (st' : Machine) (b : Bool),
      Within bt Q Start End st.mem →
      searchLoop bt inner Start SolutionEnd fuel st End sv = some (st', b) →
        (∀ i, Start ≤ i → (Q i ∨ (b = true ∧ i < SolutionEnd)) →
          bt.FirstValue ≤ st'.mem i ∧ st'.mem i ≤ bt.LastValue) := by
  refine searchLoop_rule bt inner Start SolutionEnd
    (fun st End _ => Within bt Q Start End st.mem)
    (fun st' b => ∀ i, Start ≤ i → (Q i ∨ (b = true ∧ i < SolutionEnd)) →
          bt.FirstValue ≤ st'.mem i ∧ st'.mem i ≤ bt.LastValue) ?_ ?_ ?_ ?_
  · intro st End hpre i hi1 hi2
    rcases hi2 with hq | ⟨hb, -⟩
    · exact hpre i hi1 (Or.inr hq)
    · simp at hb
  · intro st st1 hpre hn i hi1 hi2
    have := Within_NextValidValue bt Q Start SolutionEnd inner st st1 true hn hpre
    rcases hi2 with hq | ⟨-, hlt⟩
    · exact this i hi1 (Or.inr hq)
    · exact this i hi1 (Or.inl hlt)
  · intro st End st1 hpre hn _
    exact Within_store bt Q Start End _ hFL
      (Within_NextValidValue bt Q Start End inner st st1 true hn hpre)
  · intro st End st1 st2 End2 Found hpre hn hg
    exact Within_GotoUnvisitedNode bt Q inner Start End st1 st2 End2 Found hg
      (Within_NextValidValue bt Q Start End inner st st1 false hn hpre)

/-! ## The termination measure -/

theorem treeSize_pos (d r : Nat) : 0 < treeSize d r := by
  cases r <;> simp [treeSize]

theorem pending_congr (bt : BackTrack) (m m' : Mem) (Start : Int) (n : Nat) :
    ∀ (l : Nat), (∀ i, Start ≤ i → i < Start + (l : Int) → m i = m' i) →
      pending bt m Start n l = pending bt m' Start n l := by
  intro l
  induction l with
  | zero => intro _; rfl
  | succ k ih =>
    intro h
    simp only [pending]
    rw [ih (fun i h1 h2 => h i h1 (by push_cast; omega)),
      h (Start + (k : Int)) (by omega) (by push_cast; omega)]

/-- Trailing slots that hold `LastValue` have no right sibling. -/
theorem pending_trailing (bt : BackTrack) (m : Mem) (Start : Int) (n l2 : Nat) :
    ∀ (l : Nat), l2 ≤ l →
      (∀ i, Start + (l2 : Int) ≤ i → i < Start + (l : Int) → m i = bt.LastValue) →
        pending bt m Start n l = pending bt m Start n l2 := by
  intro l
  induction l with
  | zero => intro h _; have : l2 = 0 := by omega
            subst this; rfl
  | succ k ih =>
    intro h1 h2
    by_cases hc : l2 = k + 1
    · subst hc; rfl
    · simp only [pending]
      rw [h2 (Start + (k : Int)) (by omega) (by push_cast; omega),
        ih (by omega) (fun i hi1 hi2 => h2 i hi1 (by push_cast; omega))]
      simp

/-- Moving the last slot up does not add pending nodes. -/
theorem pending_poke_le (bt : BackTrack) (m : Mem) (Start : Int) (n l : Nat) (w : Int)
    (hw : m (Start + (l : Int)) ≤ w) :
    pending bt (poke m (Start + (l : Int)) w) Start n (l + 1) ≤ pending bt m Start n (l + 1) := by
  simp only [pending, poke_same]
  rw [pending_congr bt (poke m (Start + (l : Int)) w) m Start n l
    (fun i _ hi2 => poke_other _ _ _ (by omega))]
  have : (bt.LastValue - w).toNat ≤ (bt.LastValue - m (Start + (l : Int))).toNat := by omega
  exact Nat.add_le_add_left (Nat.mul_le_mul_right _ this) _

/-- Descending to a fresh child seeded at `FirstValue` passes exactly one node. -/
theorem pending_descend (bt : BackTrack) (m : Mem) (Start : Int) (n l : Nat)
    (hFL : bt.FirstValue ≤ bt.LastValue) (hl : l < n) :
    treeSize (domainSize bt) (n - (l + 1))
        + pending bt (poke m (Start + (l : Int)) bt.FirstValue) Start n (l + 1) + 1
      = treeSize (domainSize bt) (n - l) + pending bt m Start n l := by
  simp only [pending, poke_same]
  rw [pending_congr bt (poke m (Start + (l : Int)) bt.FirstValue) m Start n l
    (fun i _ hi2 => poke_other _ _ _ (by omega))]
  obtain ⟨r, hr⟩ : ∃ r, n - l = r + 1 := ⟨n - l - 1, by omega⟩
  have e1 : n - (l + 1) = r := by omega
  have e2 : n - 1 - l = r := by omega
  obtain ⟨d, hd⟩ : ∃ d, domainSize bt = d + 1 := ⟨domainSize bt - 1, by
    unfold domainSize; omega⟩
  have e3 : (bt.LastValue - bt.FirstValue).toNat = d := by
    unfold domainSize at hd; omega
  rw [hr, e1, e2, e3, hd]
  simp only [treeSize]
  ring

/-- Moving a slot that is below `LastValue` one step up passes the subtree it was the root of. -/
theorem pending_advance (bt : BackTrack) (m : Mem) (Start : Int) (n l : Nat)
    (hv : m (Start + (l : Int)) < bt.LastValue) :
    treeSize (domainSize bt) (n - (l + 1))
        + pending bt (poke m (Start + (l : Int)) (m (Start + (l : Int)) + 1)) Start n (l + 1)
      = pending bt m Start n (l + 1) := by
  simp only [pending, poke_same]
  rw [pending_congr bt (poke m (Start + (l : Int)) _) m Start n l
    (fun i _ hi2 => poke_other _ _ _ (by omega))]
  obtain ⟨c, hc⟩ : ∃ c : Nat, (bt.LastValue - m (Start + (l : Int))).toNat = c + 1 :=
    ⟨(bt.LastValue - m (Start + (l : Int))).toNat - 1, by omega⟩
  have e1 : (bt.LastValue - (m (Start + (l : Int)) + 1)).toNat = c := by omega
  have e2 : n - (l + 1) = n - 1 - l := by omega
  rw [hc, e1, e2]
  ring

theorem todo_NextValidValue (bt : BackTrack) (Start End : Int) (n fuel : Nat)
    (st st1 : Machine) (b : Bool) (h : NextValidValue bt Start End fuel st = some (st1, b))
    (hne : Start < End) : todo bt Start n st1.mem End ≤ todo bt Start n st.mem End := by
  obtain ⟨w, hw1, hw2, -, -, -⟩ := NextValidValue_spec bt Start End fuel st st1 b h
  obtain ⟨l, hl⟩ : ∃ l : Nat, (End - Start).toNat = l + 1 := ⟨(End - Start).toNat - 1, by omega⟩
  have he : End - 1 = Start + (l : Int) := by omega
  unfold todo
  rw [hl, hw2, he]
  rw [he] at hw1
  exact Nat.add_le_add_left (pending_poke_le bt st.mem Start n l w hw1) _

theorem todo_descend (bt : BackTrack) (Start End : Int) (n : Nat) (m : Mem)
    (hFL : bt.FirstValue ≤ bt.LastValue) (h1 : Start ≤ End) (h2 : End < Start + (n : Int)) :
    todo bt Start n (poke m End bt.FirstValue) (End + 1) + 1 = todo bt Start n m End := by
  obtain ⟨l, hl⟩ : ∃ l : Nat, (End - Start).toNat = l := ⟨_, rfl⟩
  have he : End = Start + (l : Int) := by omega
  have hl2 : (End + 1 - Start).toNat = l + 1 := by omega
  unfold todo
  rw [hl, hl2, he]
  exact pending_descend bt m Start n l hFL (by omega)

theorem todo_GotoUnvisitedNode (bt : BackTrack) (Q : Int → Prop) (fuel : Nat)
    (Start End : Int) (n : Nat) (st st2 : Machine) (End2 : Int)
    (h : GotoUnvisitedNode bt fuel Start End st = some (st2, End2, true))
    (hne : Start < End) (hw : Within bt Q Start End st.mem) :
    todo bt Start n st2.mem End2 < todo bt Start n st.mem End := by
  obtain ⟨g1, g2, g3, g4, -⟩ := GotoUnvisitedNode_spec bt fuel Start End st st2 End2 true h
  obtain ⟨g5, g6⟩ := g4 rfl
  have g7 := g2 hne
  obtain ⟨l2, hl2⟩ : ∃ l : Nat, (End2 - Start).toNat = l + 1 :=
    ⟨(End2 - Start).toNat - 1, by omega⟩
  have he : End2 - 1 = Start + (l2 : Int) := by omega
  have hv : st.mem (Start + (l2 : Int)) < bt.LastValue := by
    have := hw (End2 - 1) (by omega) (Or.inl (by omega))
    rw [he] at this g5
    omega
  have e1 := pending_trailing bt st.mem Start n (l2 + 1) (End - Start).toNat (by omega)
    (fun i hi1 hi2 => g3 i (by push_cast at hi1; omega) (by omega))
  have e2 := pending_advance bt st.mem Start n l2 hv
  have e3 := treeSize_pos (domainSize bt) (n - (End - Start).toNat)
  unfold todo
  rw [hl2, g6, he, e1]
  omega

/-- The driving loop returns: entered on a prefix within range, with at least `domainSize` and
`n` units of fuel for the inner loops, it needs no more turns than there are nodes ahead. -/
theorem searchLoop_total (bt : BackTrack) (inner : Nat) (Start : Int) (n : Nat)
    (hFL : bt.FirstValue ≤ bt.LastValue) (hin1 : domainSize bt ≤ inner) (hin2 : n ≤ inner) :
    ∀ (N : Nat) (st : Machine) (End : Int), Start < End → End ≤ Start + (n : Int) →
      Within bt (fun _ => False) Start End st.mem → todo bt Start n st.mem End ≤ N →
      ∀ fuel, N < fuel →
        ∃ r, searchLoop bt inner Start (Start + (n : Int)) fuel st End true = some r := by
  intro N
  induction N with
  | zero =>
    intro st End _ _ _ h
    have := treeSize_pos (domainSize bt) (n - (End - Start).toNat)
    unfold todo at h
    omega
  | succ N ih =>
    intro st End h1 h2 hw hN fuel hf
    obtain ⟨k, rfl⟩ : ∃ k, fuel = k + 1 := ⟨fuel - 1, by omega⟩
    have hv := hw (End - 1) (by omega) (Or.inl (by omega))
    obtain ⟨⟨st1, b⟩, hn⟩ := NextValidValue_total bt Start End inner st hv.2
      (by unfold domainSize at hin1; omega)
    have hw1 := Within_NextValidValue bt _ Start End inner st st1 b hn hw
    have hm1 := todo_NextValidValue bt Start End n inner st st1 b hn h1
    simp only [searchLoop, if_true, hn]
    cases b with
    | true =>
      simp only
      split_ifs with he
      · exact ⟨_, rfl⟩
      · have hlt : End < Start + (n : Int) := lt_of_le_of_ne h2 he
        have hm2 := todo_descend bt Start End n st1.mem hFL (by omega) hlt
        exact ih _ _ (by omega) (by omega)
          (Within_store bt _ Start End _ hFL hw1) (by simp only [store_mem]; omega) k (by omega)
    | false =>
      simp only
      obtain ⟨⟨st2, End2, Found⟩, hg⟩ := GotoUnvisitedNode_total bt inner Start End st1 h1
        (by omega)
      simp only [hg]
      obtain ⟨g1, g2, -, -, -⟩ := GotoUnvisitedNode_spec bt inner Start End st1 st2 End2 Found hg
      cases Found with
      | false =>
        obtain ⟨k2, rfl⟩ : ∃ k2, k = k2 + 1 := ⟨k - 1, by omega⟩
        exact ⟨(st2, false), by simp [searchLoop]⟩
      | true =>
        have hm2 := todo_GotoUnvisitedNode bt _ inner Start End n st1 st2 End2 hg h1 hw1
        exact ih _ _ (g2 h1) (by omega)
          (Within_GotoUnvisitedNode bt _ inner Start End st1 st2 End2 true hg hw1)
          (by omega) k (by omega)

/-- The number of nodes ahead never grows: a solution returned by the loop has no more nodes
ahead than the state the loop was entered in. -/
theorem searchLoop_todo (bt : BackTrack) (inner : Nat) (Start : Int) (n B : Nat)
    (hFL : bt.FirstValue ≤ bt.LastValue) :
    ∀ (fuel : Nat) (st : Machine) (End : Int) (sv : Bool) (st' : Machine) (b : Bool),
      (sv = true → Start < End ∧ End ≤ Start + (n : Int) ∧
        Within bt (fun _ => False) Start End st.mem ∧ todo bt Start n st.mem End ≤ B) →
      searchLoop bt inner Start (Start + (n : Int)) fuel st End sv = some (st', b) →
        (b = true → todo bt Start n st'.mem (Start + (n : Int)) ≤ B) := by
  refine searchLoop_rule bt inner Start (Start + (n : Int))
    (fun st End sv => sv = true → Start < End ∧ End ≤ Start + (n : Int) ∧
        Within bt (fun _ => False) Start End st.mem ∧ todo bt Start n st.mem End ≤ B)
    (fun st' b => b = true → todo bt Start n st'.mem (Start + (n : Int)) ≤ B) ?_ ?_ ?_ ?_
  · intro st End _ hb
    simp at hb
  · intro st st1 hpre hn _
    obtain ⟨h1, -, -, h4⟩ := hpre rfl
    have := todo_NextValidValue bt Start _ n inner st st1 true hn h1
    omega
  · intro st End st1 hpre hn he _
    obtain ⟨h1, h2, h3, h4⟩ := hpre rfl
    have hlt : End < Start + (n : Int) := lt_of_le_of_ne h2 he
    have hm1 := todo_NextValidValue bt Start End n inner st st1 true hn h1
    have hm2 := todo_descend bt Start End n st1.mem hFL (by omega) hlt
    exact ⟨by omega, by omega, Within_store bt _ Start End _ hFL
      (Within_NextValidValue bt _ Start End inner st st1 true hn h3),
      by simp only [store_mem]; omega⟩
  · intro st End st1 st2 End2 Found hpre hn hg hF
    subst hF
    obtain ⟨h1, h2, h3, h4⟩ := hpre rfl
    have hw1 := Within_NextValidValue bt _ Start End inner st st1 false hn h3
    have hm1 := todo_NextValidValue bt Start End n inner st st1 false hn h1
    have hm2 := todo_GotoUnvisitedNode bt _ inner Start End n st1 st2 End2 hg h1 hw1
    obtain ⟨g1, g2, -, -, -⟩ := GotoUnvisitedNode_spec bt inner Start End st1 st2 End2 true hg
    exact ⟨g2 h1, by omega,
      Within_GotoUnvisitedNode bt _ inner Start End st1 st2 End2 true hg hw1, by omega⟩

/-! ## More fuel changes nothing -/

theorem backUp_mono (bt : BackTrack) (Start : Int) :
    ∀ (fuel fuel2 : Nat) (Last : Int) (st : Machine) (r : Int × Machine), fuel ≤ fuel2 →
      backUp bt Start fuel Last st = some r → backUp bt Start fuel2 Last st = some r := by
  intro fuel
  induction fuel with
  | zero => intro fuel2 Last st r _ h; simp [backUp] at h
  | succ k ih =>
    intro fuel2 Last st r hle h
    obtain ⟨k2, rfl⟩ : ∃ k2, fuel2 = k2 + 1 := ⟨fuel2 - 1, by omega⟩
    simp only [backUp] at h ⊢
    split_ifs at h ⊢ with h1 h2
    · exact ih k2 _ _ _ (by omega) h
    · exact h
    · exact h

theorem GotoUnvisitedNode_mono (bt : BackTrack) (fuel fuel2 : Nat) (Start End : Int)
    (st : Machine) (r : Machine × Int × Bool) (hle : fuel ≤ fuel2)
    (h : GotoUnvisitedNode bt fuel Start End st = some r) :
    GotoUnvisitedNode bt fuel2 Start End st = some r := by
  unfold GotoUnvisitedNode at h ⊢
  cases hb : backUp bt Start fuel (End - 1) st with
  | none => simp [hb] at h
  | some q =>
    rw [backUp_mono bt Start fuel fuel2 _ _ q hle hb]
    simpa only [hb] using h

theorem NextValidValue_mono (bt : BackTrack) (Start End : Int) :
    ∀ (fuel fuel2 : Nat) (st : Machine) (r : Machine × Bool), fuel ≤ fuel2 →
      NextValidValue bt Start End fuel st = some r →
        NextValidValue bt Start End fuel2 st = some r := by
  intro fuel
  induction fuel with
  | zero => intro fuel2 st r _ h; simp [NextValidValue] at h
  | succ k ih =>
    intro fuel2 st r hle h
    obtain ⟨k2, rfl⟩ : ∃ k2, fuel2 = k2 + 1 := ⟨fuel2 - 1, by omega⟩
    simp only [NextValidValue] at h ⊢
    split_ifs at h ⊢ with h1 h2
    · exact h
    · exact ih k2 _ _ (by omega) h
    · exact h

theorem searchLoop_mono (bt : BackTrack) (inner inner2 : Nat) (Start SolutionEnd : Int)
    (hin : inner ≤ inner2) :
    ∀ (fuel fuel2 : Nat) (st : Machine) (End : Int) (sv : Bool) (r : Machine × Bool),
      fuel ≤ fuel2 → searchLoop bt inner Start SolutionEnd fuel st End sv = some r →
        searchLoop bt inner2 Start SolutionEnd fuel2 st End sv = some r := by
  intro fuel
  induction fuel with
  | zero => intro fuel2 st End sv r _ h; simp [searchLoop] at h
  | succ k ih =>
    intro fuel2 st End sv r hle h
    obtain ⟨k2, rfl⟩ : ∃ k2, fuel2 = k2 + 1 := ⟨fuel2 - 1, by omega⟩
    cases sv with
    | false => simpa [searchLoop] using h
    | true =>
      simp only [searchLoop, if_true] at h ⊢
      cases hn : NextValidValue bt Start End inner st with
      | none => simp [hn] at h
      | some q =>
        obtain ⟨st1, v⟩ := q
        rw [NextValidValue_mono bt Start End inner inner2 st _ hin hn]
        cases v with
        | true =>
          simp only [hn] at h ⊢
          split_ifs at h ⊢ with he
          · exact h
          · exact ih k2 _ _ _ _ (by omega) h
        | false =>
          simp only [hn] at h ⊢
          cases hg : GotoUnvisitedNode bt inner Start End st1 with
          | none => simp [hg] at h
          | some q2 =>
            obtain ⟨st2, End2, Found⟩ := q2
            rw [GotoUnvisitedNode_mono bt inner inner2 Start End st1 _ hin hg]
            simp only [hg] at h ⊢
            exact ih k2 _ _ _ _ (by omega) h

/-- A call of `operator()` that returns on some fuel returns the same on any larger fuel. -/
theorem Search_mono (bt : BackTrack) (fuel fuel2 : Nat) (Start End : Int) (type : SolutionType)
    (st : Machine) (r : Machine × Bool) (hle : fuel ≤ fuel2)
    (h : Search bt fuel Start End type st = some r) :
    Search bt fuel2 Start End type st = some r := by
  unfold Search at h ⊢
  split_ifs at h ⊢ with h1
  · exact h
  · cases type with
    | FirstSolution => exact searchLoop_mono bt fuel fuel2 Start End hle _ _ _ _ _ _ hle h
    | NextSolution =>
      simp only at h ⊢
      cases hg : GotoUnvisitedNode bt fuel Start End st with
      | none => simp [hg] at h
      | some q =>
        obtain ⟨st1, End1, Found⟩ := q
        rw [GotoUnvisitedNode_mono bt fuel fuel2 Start End st _ hle hg]
        simp only [hg] at h ⊢
        exact searchLoop_mono bt fuel fuel2 Start End hle _ _ _ _ _ _ hle h

/-- Two returning runs of the same call agree, whatever their fuel. -/
theorem Search_fuel_irrelevant (bt : BackTrack) (fuel fuel2 : Nat) (Start End : Int)
    (type : SolutionType) (st : Machine) (r r2 : Machine × Bool)
    (h : Search bt fuel Start End type st = some r)
    (h2 : Search bt fuel2 Start End type st = some r2) : r = r2 := by
  have e1 := Search_mono bt fuel (max fuel fuel2) Start End type st r (le_max_left _ _) h
  have e2 := Search_mono bt fuel2 (max fuel fuel2) Start End type st r2 (le_max_right _ _) h2
  rw [e1] at e2
  exact Option.some.inj e2

/-! ## The first turn of a `FirstSolution` search -/

theorem firstChild_mem (bt : BackTrack) (Start : Int) (st : Machine) :
    (firstChild bt Start st).mem = poke st.mem Start bt.FirstValue := by
  simp [firstChild]

theorem Search_first_unroll (bt : BackTrack) (fuel : Nat) (Start End : Int) (st : Machine)
    (hne : Start < End) (hempty : ∀ m, bt.IsValid m Start Start = true) :
    Search bt (fuel + 1) Start End SolutionType.FirstSolution st
      = searchLoop bt (fuel + 1) Start End fuel (firstChild bt Start st) (Start + 1) true := by
  unfold Search
  rw [if_neg (by omega)]
  simp only [searchLoop, if_true, NextValidValue_accepted bt Start Start fuel _ (hempty _)]
  rw [if_neg (by omega)]
  rfl

theorem Within_firstChild (bt : BackTrack) (Q : Int → Prop) (Start : Int) (st : Machine)
    (hFL : bt.FirstValue ≤ bt.LastValue) (hQ : Within bt Q Start Start st.mem) :
    Within bt Q Start (Start + 1) (firstChild bt Start st).mem := by
  rw [firstChild_mem]
  exact Within_store bt Q Start Start st.mem hFL hQ

theorem todo_firstChild (bt : BackTrack) (Start : Int) (n : Nat) (st : Machine)
    (hFL : bt.FirstValue ≤ bt.LastValue) (hn : 0 < n) :
    todo bt Start n (firstChild bt Start st).mem (Start + 1) + 1
      = treeSize (domainSize bt) n := by
  rw [firstChild_mem, todo_descend bt Start Start n st.mem hFL (le_refl _) (by omega)]
  simp [todo, pending]

/-! ## `operator()` returns -/

/-- A `FirstSolution` search whose predicate accepts the empty range returns, on any fuel above
`domainSize + n + treeSize domainSize n`. -/
theorem Search_total_first (bt : BackTrack) (Start : Int) (n : Nat) (st : Machine)
    (hFL : bt.FirstValue ≤ bt.LastValue) (hn : 0 < n)
    (hempty : ∀ m, bt.IsValid m Start Start = true) (fuel : Nat)
    (hf : domainSize bt + n + treeSize (domainSize bt) n < fuel) :
    ∃ r, Search bt fuel Start (Start + (n : Int)) SolutionType.FirstSolution st = some r := by
  obtain ⟨k, rfl⟩ : ∃ k, fuel = k + 1 := ⟨fuel - 1, by omega⟩
  rw [Search_first_unroll bt k Start _ st (by omega) hempty]
  have := todo_firstChild bt Start n st hFL hn
  exact searchLoop_total bt (k + 1) Start n hFL (by omega) (by omega) _ _ _ (by omega) (by omega)
    (Within_firstChild bt _ Start st hFL (fun i h1 h2 => by rcases h2 with h | h; exacts [absurd h (by omega), h.elim]))
    (le_refl _) k (by omega)

/-- A `NextSolution` search entered with every slot within range returns, on any fuel above
`domainSize + n + todo`. -/
theorem Search_total_next (bt : BackTrack) (Start : Int) (n : Nat) (st : Machine)
    (hFL : bt.FirstValue ≤ bt.LastValue) (hn : 0 < n)
    (hw : Within bt (fun _ => False) Start (Start + (n : Int)) st.mem) (fuel : Nat)
    (hf : domainSize bt + n + todo bt Start n st.mem (Start + (n : Int)) < fuel) :
    ∃ r, Search bt fuel Start (Start + (n : Int)) SolutionType.NextSolution st = some r := by
  unfold Search
  rw [if_neg (by omega)]
  simp only
  obtain ⟨⟨st1, End1, Found⟩, hg⟩ := GotoUnvisitedNode_total bt fuel Start (Start + (n : Int)) st
    (by omega) (by omega)
  simp only [hg]
  obtain ⟨g1, g2, -, -, -⟩ := GotoUnvisitedNode_spec bt fuel Start _ st st1 End1 Found hg
  cases Found with
  | false =>
    obtain ⟨k, rfl⟩ : ∃ k, fuel = k + 1 := ⟨fuel - 1, by omega⟩
    exact ⟨(st1, false), by simp [searchLoop]⟩
  | true =>
    have hm := todo_GotoUnvisitedNode bt _ fuel Start _ n st st1 End1 hg (by omega) hw
    exact searchLoop_total bt fuel Start n hFL (by omega) (by omega) _ _ _ (g2 (by omega)) g1
      (Within_GotoUnvisitedNode bt _ fuel Start _ st st1 End1 true hg hw) (le_refl _) fuel
      (by omega)

/-! ## What the search passes over -/

theorem Viable_agree (bt : BackTrack) (Start SolutionEnd E : Int) (m b : Mem)
    (hb : Viable bt Start SolutionEnd b) (h1 : Start < E) (h2 : E ≤ SolutionEnd)
    (ha : Agree Start E b m) : bt.IsValid m Start E = true :=
  hb.2 E m h1 h2 (fun i hi1 hi2 => (ha i hi1 hi2).symm)

theorem Ahead_NextValidValue (bt : BackTrack) (Start End SolutionEnd : Int) (fuel : Nat)
    (st st1 : Machine) (v : Bool) (b : Mem)
    (h : NextValidValue bt Start End fuel st = some (st1, v))
    (h1 : Start < End) (h2 : End ≤ SolutionEnd) (hb : Viable bt Start SolutionEnd b)
    (ha : Ahead Start End st.mem b) :
    Ahead Start End st1.mem b ∧ (v = false → Beyond Start End st1.mem b) := by
  obtain ⟨w, hw1, hw2, hw3, -, hw5⟩ := NextValidValue_spec bt Start End fuel st st1 v h
  have key : Ahead Start End st1.mem b := by
    rcases ha with ha | ⟨j, hj1, hj2, hj3, hj4⟩
    · have hwv : w = st.mem (End - 1) := by
        by_contra hc
        have := (hw3 (st.mem (End - 1)) (le_refl _) (lt_of_le_of_ne hw1 (Ne.symm hc))).2
        rw [poke_self, hb.2 End st.mem h1 h2 ha] at this
        exact Bool.noConfusion this
      rw [hw2, hwv, poke_self]
      exact Or.inl ha
    · by_cases hc : j = End - 1
      · subst hc
        have hge : w ≤ b (End - 1) := by
          by_contra hlt
          have := (hw3 (b (End - 1)) (le_of_lt hj4) (by omega)).2
          rw [Viable_agree bt Start SolutionEnd End _ b hb h1 h2
            (fun i hi1 hi2 => by
              by_cases hi : i = End - 1
              · subst hi; simp
              · rw [poke_other _ _ _ hi]; exact (hj3 i hi1 (by omega)).symm)] at this
          exact Bool.noConfusion this
        rcases eq_or_lt_of_le hge with he | hlt
        · left
          intro i hi1 hi2
          by_cases hi : i = End - 1
          · subst hi; rw [hw2, poke_same, he]
          · rw [hw2, poke_other _ _ _ hi]; exact hj3 i hi1 (by omega)
        · right
          refine ⟨End - 1, hj1, hj2, fun i hi1 hi2 => ?_, by rw [hw2, poke_same]; exact hlt⟩
          rw [hw2, poke_other _ _ _ (by omega)]
          exact hj3 i hi1 hi2
      · right
        refine ⟨j, hj1, hj2, fun i hi1 hi2 => ?_, by rw [hw2, poke_other _ _ _ hc]; exact hj4⟩
        rw [hw2, poke_other _ _ _ (by omega)]
        exact hj3 i hi1 hi2
  refine ⟨key, fun hv => ?_⟩
  rcases key with ha1 | hb1
  · have := (hw5 hv).2
    rw [hb.2 End st1.mem h1 h2 ha1] at this
    exact Bool.noConfusion this
  · exact hb1

theorem Ahead_store (Start End : Int) (m b : Mem) (v : Int) (h1 : Start ≤ End)
    (hv : v ≤ b End) (ha : Ahead Start End m b) : Ahead Start (End + 1) (poke m End v) b := by
  rcases ha with ha | ⟨j, hj1, hj2, hj3, hj4⟩
  · rcases eq_or_lt_of_le hv with he | hlt
    · left
      intro i hi1 hi2
      by_cases hi : i = End
      · subst hi; rw [poke_same, he]
      · rw [poke_other _ _ _ hi]; exact ha i hi1 (by omega)
    · right
      refine ⟨End, h1, by omega, fun i hi1 hi2 => ?_, by rw [poke_same]; exact hlt⟩
      rw [poke_other _ _ _ (by omega)]
      exact ha i hi1 hi2
  · right
    refine ⟨j, hj1, by omega, fun i hi1 hi2 => ?_, by rw [poke_other _ _ _ (by omega)]; exact hj4⟩
    rw [poke_other _ _ _ (by omega)]
    exact hj3 i hi1 hi2

theorem Ahead_GotoUnvisitedNode (bt : BackTrack) (fuel : Nat) (Start End : Int)
    (st st2 : Machine) (End2 : Int) (Found : Bool) (b : Mem)
    (h : GotoUnvisitedNode bt fuel Start End st = some (st2, End2, Found))
    (h1 : Start < End) (hb : ∀ i, Start ≤ i → i < End → b i ≤ bt.LastValue)
    (ha : Beyond Start End st.mem b) : Found = true ∧ Ahead Start End2 st2.mem b := by
  obtain ⟨g1, g2, g3, g4, g5⟩ := GotoUnvisitedNode_spec bt fuel Start End st st2 End2 Found h
  obtain ⟨j, hj1, hj2, hj3, hj4⟩ := ha
  have hjL : st.mem j ≠ bt.LastValue := by have := hb j hj1 hj2; omega
  have hjE : j < End2 := by
    by_contra hc
    exact hjL (g3 j (by omega) hj2)
  cases Found with
  | false =>
    obtain ⟨g6, -, g7⟩ := g5 rfl
    have : j = End2 - 1 := by have := g7 h1; omega
    subst this
    exact absurd g6 hjL
  | true =>
    refine ⟨rfl, ?_⟩
    obtain ⟨g6, g7⟩ := g4 rfl
    by_cases hc : j = End2 - 1
    · subst hc
      rcases eq_or_lt_of_le (show st.mem (End2 - 1) + 1 ≤ b (End2 - 1) by omega) with he | hlt
      · left
        intro i hi1 hi2
        by_cases hi : i = End2 - 1
        · subst hi; rw [g7, poke_same, he]
        · rw [g7, poke_other _ _ _ hi]; exact hj3 i hi1 (by omega)
      · right
        refine ⟨End2 - 1, hj1, by omega, fun i hi1 hi2 => ?_, by rw [g7, poke_same]; exact hlt⟩
        rw [g7, poke_other _ _ _ (by omega)]
        exact hj3 i hi1 hi2
    · right
      refine ⟨j, hj1, hjE, fun i hi1 hi2 => ?_, by rw [g7, poke_other _ _ _ hc]; exact hj4⟩
      rw [g7, poke_other _ _ _ (by omega)]
      exact hj3 i hi1 hi2

/-- The driving loop passes over no viable assignment of the family `T`: what it returns with
`Valid = true` is at or before every member of `T` that was ahead, and it returns
`Valid = false` only if `T` is empty. -/
theorem searchLoop_least (bt : BackTrack) (inner : Nat) (Start SolutionEnd : Int)
    (T : Mem → Prop) (hT : ∀ b, T b → Viable bt Start SolutionEnd b) :
    ∀ (fuel : Nat) (st : Machine) (End : Int) (sv : Bool) (st' : Machine) (v : Bool),
      ((sv = true → Start < End ∧ End ≤ SolutionEnd ∧ ∀ b, T b → Ahead Start End st.mem b) ∧
        (sv = false → ∀ b, ¬ T b)) →
      searchLoop bt inner Start SolutionEnd fuel st End sv = some (st', v) →
        ((v = true → ∀ b, T b → Ahead Start SolutionEnd st'.mem b) ∧
          (v = false → ∀ b, ¬ T b)) := by
  refine searchLoop_rule bt inner Start SolutionEnd
    (fun st End sv =>
      (sv = true → Start < End ∧ End ≤ SolutionEnd ∧ ∀ b, T b → Ahead Start End st.mem b) ∧
        (sv = false → ∀ b, ¬ T b))
    (fun st' v => (v = true → ∀ b, T b → Ahead Start SolutionEnd st'.mem b) ∧
          (v = false → ∀ b, ¬ T b)) ?_ ?_ ?_ ?_
  · intro st End hpre
    exact ⟨fun hv => by simp at hv, fun _ => hpre.2 rfl⟩
  · intro st st1 hpre hn
    obtain ⟨h1, h2, h3⟩ := hpre.1 rfl
    exact ⟨fun _ b hb => (Ahead_NextValidValue bt Start _ _ inner st st1 true b hn h1 h2
      (hT b hb) (h3 b hb)).1, fun hv => by simp at hv⟩
  · intro st End st1 hpre hn he
    obtain ⟨h1, h2, h3⟩ := hpre.1 rfl
    refine ⟨fun _ => ⟨by omega, by omega, fun b hb => ?_⟩, fun hv => by simp at hv⟩
    exact Ahead_store Start End st1.mem b _ (by omega)
      ((hT b hb).1 End (by omega) (by omega)).1
      (Ahead_NextValidValue bt Start End SolutionEnd inner st st1 true b hn h1 h2
        (hT b hb) (h3 b hb)).1
  · intro st End st1 st2 End2 Found hpre hn hg
    obtain ⟨h1, h2, h3⟩ := hpre.1 rfl
    obtain ⟨g1, g2, -, -, -⟩ := GotoUnvisitedNode_spec bt inner Start End st1 st2 End2 Found hg
    have step : ∀ b, T b → Found = true ∧ Ahead Start End2 st2.mem b := fun b hb =>
      Ahead_GotoUnvisitedNode bt inner Start End st1 st2 End2 Found b hg h1
        (fun i hi1 hi2 => ((hT b hb).1 i hi1 (by omega)).2)
        ((Ahead_NextValidValue bt Start End SolutionEnd inner st st1 false b hn h1 h2
          (hT b hb) (h3 b hb)).2 rfl)
    refine ⟨fun _ => ⟨g2 h1, by omega, fun b hb => (step b hb).2⟩, fun hF b hb => ?_⟩
    rw [(step b hb).1] at hF
    exact Bool.noConfusion hF

theorem Beyond_poke (Start End p u : Int) (m0 m : Mem) (h : Beyond Start End m0 m)
    (hp : Start ≤ p) (hu : m p < u) : Beyond Start (p + 1) m0 (poke m p u) := by
  obtain ⟨j, hj1, hj2, hj3, hj4⟩ := h
  rcases lt_trichotomy j p with hlt | heq | hgt
  · refine ⟨j, hj1, by omega, fun i hi1 hi2 => ?_, by rw [poke_other _ _ _ (by omega)]; exact hj4⟩
    rw [poke_other _ _ _ (by omega)]
    exact hj3 i hi1 hi2
  · subst heq
    refine ⟨j, hj1, by omega, fun i hi1 hi2 => ?_, by rw [poke_same]; omega⟩
    rw [poke_other _ _ _ (by omega)]
    exact hj3 i hi1 hi2
  · refine ⟨p, hp, by omega, fun i hi1 hi2 => ?_, by
      rw [poke_same, ← hj3 p hp hgt]; exact hu⟩
    rw [poke_other _ _ _ (by omega)]
    exact hj3 i hi1 (by omega)

theorem Beyond_store (Start End v : Int) (m0 m : Mem) (h : Beyond Start End m0 m) :
    Beyond Start (End + 1) m0 (poke m End v) := by
  obtain ⟨j, hj1, hj2, hj3, hj4⟩ := h
  refine ⟨j, hj1, by omega, fun i hi1 hi2 => ?_, by rw [poke_other _ _ _ (by omega)]; exact hj4⟩
  rw [poke_other _ _ _ (by omega)]
  exact hj3 i hi1 hi2

theorem Beyond_NextValidValue (bt : BackTrack) (Start End : Int) (fuel : Nat)
    (st st1 : Machine) (v : Bool) (m0 : Mem)
    (h : NextValidValue bt Start End fuel st = some (st1, v)) (h1 : Start < End)
    (hb : Beyond Start End m0 st.mem) : Beyond Start End m0 st1.mem := by
  obtain ⟨w, hw1, hw2, -, -, -⟩ := NextValidValue_spec bt Start End fuel st st1 v h
  rcases eq_or_lt_of_le hw1 with he | hlt
  · rw [hw2, ← he, poke_self]
    exact hb
  · have := Beyond_poke Start End (End - 1) w m0 st.mem hb (by omega) hlt
    rw [hw2]
    simpa using this

theorem Beyond_GotoUnvisitedNode (bt : BackTrack) (fuel : Nat) (Start End : Int)
    (st st2 : Machine) (End2 : Int) (m0 : Mem)
    (h : GotoUnvisitedNode bt fuel Start End st = some (st2, End2, true)) (h1 : Start < End)
    (hb : Beyond Start End m0 st.mem) : Beyond Start End2 m0 st2.mem := by
  obtain ⟨-, g2, -, g4, -⟩ := GotoUnvisitedNode_spec bt fuel Start End st st2 End2 true h
  have := Beyond_poke Start End (End2 - 1) (st.mem (End2 - 1) + 1) m0 st.mem hb
    (by have := g2 h1; omega) (by omega)
  rw [(g4 rfl).2]
  simpa using this

/-- A successful `NextSolution` search returns a buffer lexicographically beyond the one it was
entered with. -/
theorem Search_next_beyond (bt : BackTrack) (fuel : Nat) (Start End : Int)
    (st st' : Machine) (hne : Start < End)
    (h : Search bt fuel Start End SolutionType.NextSolution st = some (st', true)) :
    Beyond Start End st.mem st'.mem := by
  refine Search_rule bt fuel Start End SolutionType.NextSolution st hne
    (fun s E sv => sv = true → Start < E ∧ E ≤ End ∧ Beyond Start E st.mem s.mem)
    (fun s v => v = true → Beyond Start End st.mem s.mem)
    (fun hc => by simp at hc) ?_ ?_ ?_ ?_ ?_ st' true h rfl
  · intro _ st1 End1 Found hg hF
    subst hF
    obtain ⟨g1, g2, -, g4, -⟩ := GotoUnvisitedNode_spec bt fuel Start End st st1 End1 true hg
    refine ⟨g2 hne, g1, End1 - 1, by have := g2 hne; omega, by omega, fun i hi1 hi2 => ?_, ?_⟩
    · rw [(g4 rfl).2, poke_other _ _ _ (by omega)]
    · rw [(g4 rfl).2, poke_same]; omega
  · intro s E _ hv
    simp at hv
  · intro s s1 hpre hn _
    obtain ⟨p1, -, p3⟩ := hpre rfl
    exact Beyond_NextValidValue bt Start End fuel s s1 true st.mem hn p1 p3
  · intro s E s1 hpre hn he _
    obtain ⟨p1, p2, p3⟩ := hpre rfl
    exact ⟨by omega, by omega, Beyond_store Start E _ st.mem s1.mem
      (Beyond_NextValidValue bt Start E fuel s s1 true st.mem hn p1 p3)⟩
  · intro s E s1 s2 End2 Found hpre hn hg hF
    subst hF
    obtain ⟨p1, p2, p3⟩ := hpre rfl
    obtain ⟨g1, g2, -, -, -⟩ := GotoUnvisitedNode_spec bt fuel Start E s1 s2 End2 true hg
    exact ⟨g2 p1, by omega, Beyond_GotoUnvisitedNode bt fuel Start E s1 s2 End2 st.mem hg p1
      (Beyond_NextValidValue bt Start E fuel s s1 false st.mem hn p1 p3)⟩

/-- A `FirstSolution` search whose predicate accepts the empty range returns a buffer at or
before every viable assignment, and fails only if there is none. -/
theorem Search_first_least (bt : BackTrack) (fuel : Nat) (Start End : Int)
    (st st' : Machine) (v : Bool) (hne : Start < End)
    (hempty : ∀ m, bt.IsValid m Start Start = true)
    (h : Search bt fuel Start End SolutionType.FirstSolution st = some (st', v)) :
    (v = true → ∀ b, Viable bt Start End b → Ahead Start End st'.mem b) ∧
      (v = false → ∀ b, ¬ Viable bt Start End b) := by
  cases fuel with
  | zero =>
    unfold Search at h
    rw [if_neg (by omega)] at h
    simp [searchLoop] at h
  | succ k =>
    rw [Search_first_unroll bt k Start End st hne hempty] at h
    refine searchLoop_least bt (k + 1) Start End (Viable bt Start End) (fun _ hb => hb)
      k _ _ _ _ _ ⟨fun _ => ⟨by omega, by omega, fun b hb => ?_⟩, fun hc => by simp at hc⟩ h
    rw [firstChild_mem]
    exact Ahead_store Start Start st.mem b _ (le_refl _) (hb.1 Start (le_refl _) hne).1
      (Or.inl (fun i hi1 hi2 => by omega))

/-- A `NextSolution` search returns a buffer at or before every viable assignment that is beyond
the buffer it was entered with, and fails only if there is none. -/
theorem Search_next_least (bt : BackTrack) (fuel : Nat) (Start End : Int)
    (st st' : Machine) (v : Bool) (hne : Start < End)
    (h : Search bt fuel Start End SolutionType.NextSolution st = some (st', v)) :
    (v = true → ∀ b, Viable bt Start End b → Beyond Start End st.mem b →
        Ahead Start End st'.mem b) ∧
      (v = false → ∀ b, Viable bt Start End b → ¬ Beyond Start End st.mem b) := by
  have key : (v = true → ∀ b, (Viable bt Start End b ∧ Beyond Start End st.mem b) →
        Ahead Start End st'.mem b) ∧
      (v = false → ∀ b, ¬ (Viable bt Start End b ∧ Beyond Start End st.mem b)) := by
    unfold Search at h
    rw [if_neg (by omega)] at h
    simp only at h
    cases hg : GotoUnvisitedNode bt fuel Start End st with
    | none => simp [hg] at h
    | some r =>
      obtain ⟨st1, End1, Found⟩ := r
      simp only [hg] at h
      obtain ⟨g1, g2, -, -, -⟩ := GotoUnvisitedNode_spec bt fuel Start End st st1 End1 Found hg
      have step : ∀ b, (Viable bt Start End b ∧ Beyond Start End st.mem b) →
          Found = true ∧ Ahead Start End1 st1.mem b := fun b hb =>
        Ahead_GotoUnvisitedNode bt fuel Start End st st1 End1 Found b hg hne
          (fun i hi1 hi2 => (hb.1.1 i hi1 hi2).2) hb.2
      refine searchLoop_least bt fuel Start End
        (fun b => Viable bt Start End b ∧ Beyond Start End st.mem b) (fun _ hb => hb.1)
        fuel _ _ _ _ _ ⟨fun _ => ⟨g2 hne, g1, fun b hb => (step b hb).2⟩, fun hF b hb => ?_⟩ h
      rw [(step b hb).1] at hF
      exact Bool.noConfusion hF
  exact ⟨fun hv b h1 h2 => key.1 hv b ⟨h1, h2⟩, fun hv b h1 h2 => key.2 hv b ⟨h1, h2⟩⟩

/-! ## Assignments as lists -/

theorem slots_memOf_take (Start : Int) (a : List Int) (l : Nat) (hl : l ≤ a.length) :
    slots (memOf Start a) Start l = a.take l := by
  refine List.ext_getElem (by simp [hl]) (fun i h1 h2 => ?_)
  have hi : i < l := by simpa using h1
  rw [slots_getElem, List.getElem_take]
  simp only [memOf, add_sub_cancel_left, Int.toNat_ofNat]
  exact List.getD_eq_getElem a 0 (by omega)

theorem slots_memOf (Start : Int) (a : List Int) :
    slots (memOf Start a) Start a.length = a := by
  rw [slots_memOf_take Start a a.length (le_refl _), List.take_length]

theorem slots_mem_iff (m : Mem) (Start : Int) (n : Nat) (x : Int) :
    x ∈ slots m Start n ↔ ∃ i, Start ≤ i ∧ i < Start + (n : Int) ∧ m i = x := by
  simp only [slots, List.mem_map, List.mem_range]
  constructor
  · rintro ⟨k, hk, rfl⟩
    exact ⟨Start + (k : Int), by omega, by omega, rfl⟩
  · rintro ⟨i, h1, h2, rfl⟩
    exact ⟨(i - Start).toNat, by omega, by congr 1; omega⟩

theorem slots_eq_of_Agree (Start : Int) (n : Nat) (m b : Mem)
    (h : Agree Start (Start + (n : Int)) m b) : slots m Start n = slots b Start n :=
  slots_congr m b Start n (fun i h1 h2 => (h i h1 h2).symm)

theorem Lex_of_Beyond (Start : Int) (n : Nat) (m b : Mem)
    (h : Beyond Start (Start + (n : Int)) m b) :
    List.Lex (· < ·) (slots m Start n) (slots b Start n) := by
  obtain ⟨j, hj1, hj2, hj3, hj4⟩ := h
  exact slots_lex m b n Start j hj1 hj2 (fun i h1 h2 => (hj3 i h1 h2).symm) hj4

theorem Lex_head_lt {x y : Int} {l1 l2 : List Int}
    (h : List.Lex (· < ·) (x :: l1) (y :: l2)) (hne : x ≠ y) : x < y := by
  cases h with
  | cons _ => exact absurd rfl hne
  | rel hr => exact hr

theorem Beyond_of_Lex (m b : Mem) :
    ∀ (n : Nat) (Start : Int), List.Lex (· < ·) (slots m Start n) (slots b Start n) →
      Beyond Start (Start + (n : Int)) m b := by
  intro n
  induction n with
  | zero => intro Start h; simp [slots] at h
  | succ k ih =>
    intro Start h
    rw [slots_succ, slots_succ] at h
    by_cases he : m Start = b Start
    · rw [he, List.Lex.cons_iff] at h
      obtain ⟨j, hj1, hj2, hj3, hj4⟩ := ih (Start + 1) h
      refine ⟨j, by omega, by push_cast; omega, fun i hi1 hi2 => ?_, hj4⟩
      by_cases hi : i = Start
      · subst hi; exact he.symm
      · exact hj3 i (by omega) hi2
    · refine ⟨Start, le_refl _, by push_cast; omega, fun i hi1 hi2 => by omega, ?_⟩
      exact Lex_head_lt h he

/-! ## Soundness and range of what `operator()` returns -/

/-- A buffer returned with `Valid = true` is accepted by `IsValid` over the whole range. -/
theorem Search_valid (bt : BackTrack) (fuel : Nat) (Start End : Int) (type : SolutionType)
    (st st' : Machine) (hne : Start < End)
    (h : Search bt fuel Start End type st = some (st', true)) :
    bt.IsValid st'.mem Start End = true := by
  refine Search_rule bt fuel Start End type st hne (fun _ _ _ => True)
    (fun s v => v = true → bt.IsValid s.mem Start End = true)
    (fun _ => trivial) (fun _ _ _ _ _ => trivial) ?_ ?_ (fun _ _ _ _ _ _ => trivial)
    (fun _ _ _ _ _ _ _ _ _ => trivial) st' true h rfl
  · intro s E _ hv
    simp at hv
  · intro s s1 _ hn _
    obtain ⟨w, -, -, -, hw4, -⟩ := NextValidValue_spec bt Start End fuel s s1 true hn
    exact hw4 rfl

/-- The range invariant through a whole call: slots singled out by `Q` that were within range
stay so, and on success every slot of the range is within range. -/
theorem Search_within (bt : BackTrack) (fuel : Nat) (Start End : Int) (type : SolutionType)
    (st st' : Machine) (v : Bool) (Q : Int → Prop) (hFL : bt.FirstValue ≤ bt.LastValue)
    (hne : Start < End)
    (hin : ∀ i, Start ≤ i → (Q i ∨ (type = SolutionType.NextSolution ∧ i < End)) →
      bt.FirstValue ≤ st.mem i ∧ st.mem i ≤ bt.LastValue)
    (h : Search bt fuel Start End type st = some (st', v)) :
    ∀ i, Start ≤ i → (Q i ∨ (v = true ∧ i < End)) →
      bt.FirstValue ≤ st'.mem i ∧ st'.mem i ≤ bt.LastValue := by
  unfold Search at h
  rw [if_neg (by omega)] at h
  cases type with
  | FirstSolution =>
    refine searchLoop_within bt fuel Start End Q hFL fuel _ _ _ _ _ ?_ h
    intro i hi1 hi2
    simp only [store_mem]
    by_cases hc : i = Start
    · subst hc; rw [poke_same]; exact ⟨le_refl _, hFL⟩
    · rw [poke_other _ _ _ hc]
      rcases hi2 with hlt | hq
      · omega
      · exact hin i hi1 (Or.inl hq)
  | NextSolution =>
    simp only at h
    cases hg : GotoUnvisitedNode bt fuel Start End st with
    | none => simp [hg] at h
    | some r =>
      obtain ⟨st1, End1, Found⟩ := r
      simp only [hg] at h
      refine searchLoop_within bt fuel Start End Q hFL fuel _ _ _ _ _
        (Within_GotoUnvisitedNode bt Q fuel Start End st st1 End1 Found hg ?_) h
      intro i hi1 hi2
      rcases hi2 with hlt | hq
      · exact hin i hi1 (Or.inr ⟨rfl, hlt⟩)
      · exact hin i hi1 (Or.inl hq)

/-- After a successful `NextSolution` search strictly fewer nodes are ahead. -/
theorem Search_next_todo (bt : BackTrack) (fuel : Nat) (Start : Int) (n : Nat)
    (st st' : Machine) (hFL : bt.FirstValue ≤ bt.LastValue) (hn : 0 < n)
    (hw : Within bt (fun _ => False) Start (Start + (n : Int)) st.mem)
    (h : Search bt fuel Start (Start + (n : Int)) SolutionType.NextSolution st
      = some (st', true)) :
    todo bt Start n st'.mem (Start + (n : Int)) < todo bt Start n st.mem (Start + (n : Int)) := by
  unfold Search at h
  rw [if_neg (by omega)] at h
  simp only at h
  cases hg : GotoUnvisitedNode bt fuel Start (Start + (n : Int)) st with
  | none => simp [hg] at h
  | some r =>
    obtain ⟨st1, End1, Found⟩ := r
    simp only [hg] at h
    obtain ⟨g1, g2, -, -, -⟩ := GotoUnvisitedNode_spec bt fuel Start _ st st1 End1 Found hg
    cases Found with
    | false =>
      cases fuel with
      | zero => simp [searchLoop] at h
      | succ k => simp [searchLoop] at h
    | true =>
      have hm := todo_GotoUnvisitedNode bt _ fuel Start _ n st st1 End1 hg (by omega) hw
      have := searchLoop_todo bt fuel Start n _ hFL fuel st1 End1 true st' true
        (fun _ => ⟨g2 (by omega), g1,
          Within_GotoUnvisitedNode bt _ fuel Start _ st st1 End1 true hg hw, le_refl _⟩) h rfl
      omega

/-- After a successful `FirstSolution` search fewer than `treeSize` nodes are ahead. -/
theorem Search_first_todo (bt : BackTrack) (fuel : Nat) (Start : Int) (n : Nat)
    (st st' : Machine) (hFL : bt.FirstValue ≤ bt.LastValue) (hn : 0 < n)
    (hempty : ∀ m, bt.IsValid m Start Start = true)
    (h : Search bt fuel Start (Start + (n : Int)) SolutionType.FirstSolution st
      = some (st', true)) :
    todo bt Start n st'.mem (Start + (n : Int)) < treeSize (domainSize bt) n := by
  cases fuel with
  | zero =>
    unfold Search at h
    rw [if_neg (by omega)] at h
    simp [searchLoop] at h
  | succ k =>
    rw [Search_first_unroll bt k Start _ st (by omega) hempty] at h
    have hm := todo_firstChild bt Start n st hFL hn
    have := searchLoop_todo bt (k + 1) Start n _ hFL k _ _ true st' true
      (fun _ => ⟨by omega, by omega,
        Within_firstChild bt _ Start st hFL
          (fun i h1 h2 => by rcases h2 with h | h; exacts [absurd h (by omega), h.elim]),
        le_refl _⟩) h rfl
    omega

/-! ## The enumeration over list predicates -/

theorem onSlots_empty (P : List Int → Bool) (m : Mem) (Start : Int) :
    onSlots P m Start Start = P [] := by
  simp [onSlots, slots]

theorem onSlots_full (P : List Int → Bool) (m : Mem) (Start : Int) (n : Nat) :
    onSlots P m Start (Start + (n : Int)) = P (slots m Start n) := by
  simp [onSlots]

/-- A list all of whose non-empty prefixes are accepted, with slots within range, is a viable
assignment once laid out in memory. -/
theorem Viable_memOf (First Last : Int) (P : List Int → Bool) (Start : Int) (n : Nat)
    (a : List Int) (hlen : a.length = n) (hr : ∀ x ∈ a, First ≤ x ∧ x ≤ Last)
    (hp : ∀ l, l ≤ n → P (a.take l) = true) :
    Viable ⟨First, Last, onSlots P⟩ Start (Start + (n : Int)) (memOf Start a) := by
  constructor
  · intro i hi1 hi2
    apply hr
    have : memOf Start a i ∈ slots (memOf Start a) Start a.length :=
      (slots_mem_iff _ _ _ _).mpr ⟨i, hi1, by omega, rfl⟩
    rwa [slots_memOf] at this
  · intro E m hE1 hE2 hag
    obtain ⟨l, rfl⟩ : ∃ l : Nat, E = Start + (l : Int) := ⟨(E - Start).toNat, by omega⟩
    show onSlots P m Start (Start + (l : Int)) = true
    rw [onSlots_full, slots_eq_of_Agree Start l m _ hag,
      slots_memOf_take Start a l (by omega)]
    exact hp l (by omega)

theorem Within_of_slots (bt : BackTrack) (Start : Int) (n : Nat) (m : Mem)
    (h : ∀ x ∈ slots m Start n, bt.FirstValue ≤ x ∧ x ≤ bt.LastValue) :
    Within bt (fun _ => False) Start (Start + (n : Int)) m := by
  intro i hi1 hi2
  rcases hi2 with hlt | hf
  · exact h _ ((slots_mem_iff _ _ _ _).mpr ⟨i, hi1, hlt, rfl⟩)
  · exact hf.elim

/-- What a successful call returns is a solution. -/
theorem Solution_of_Search (First Last : Int) (P : List Int → Bool) (fuel : Nat) (Start : Int)
    (n : Nat) (type : SolutionType) (st st' : Machine) (hFL : First ≤ Last) (hn : 0 < n)
    (hin : type = SolutionType.NextSolution →
      ∀ x ∈ slots st.mem Start n, First ≤ x ∧ x ≤ Last)
    (h : Search ⟨First, Last, onSlots P⟩ fuel Start (Start + (n : Int)) type st
      = some (st', true)) :
    Solution First Last P n (slots st'.mem Start n) := by
  refine ⟨slots_length _ _ _, ?_, ?_⟩
  · intro x hx
    obtain ⟨i, hi1, hi2, rfl⟩ := (slots_mem_iff _ _ _ _).mp hx
    refine Search_within ⟨First, Last, onSlots P⟩ fuel Start _ type st st' true
      (fun _ => False) hFL (by omega) ?_ h i hi1 (Or.inr ⟨rfl, hi2⟩)
    intro j hj1 hj2
    rcases hj2 with hf | ⟨ht, hlt⟩
    · exact hf.elim
    · exact hin ht _ ((slots_mem_iff _ _ _ _).mpr ⟨j, hj1, hlt, rfl⟩)
  · have := Search_valid ⟨First, Last, onSlots P⟩ fuel Start _ type st st' (by omega) h
    rwa [show (BackTrack.mk First Last (onSlots P)).IsValid = onSlots P from rfl,
      onSlots_full] at this

/-- A `FirstSolution` search over a predicate closed under taking prefixes of solutions returns
the lexicographically least solution, and fails only if there is none. -/
theorem first_least (First Last : Int) (P : List Int → Bool) (fuel : Nat) (Start : Int)
    (n : Nat) (st st' : Machine) (v : Bool) (hn : 0 < n) (hempty : P [] = true)
    (hclosed : ∀ a, Solution First Last P n a → ∀ l, P (a.take l) = true)
    (h : Search ⟨First, Last, onSlots P⟩ fuel Start (Start + (n : Int))
      SolutionType.FirstSolution st = some (st', v)) :
    (v = true → ∀ a, Solution First Last P n a → slots st'.mem Start n ≤ a) ∧
      (v = false → ∀ a, ¬ Solution First Last P n a) := by
  obtain ⟨k1, k2⟩ := Search_first_least ⟨First, Last, onSlots P⟩ fuel Start _ st st' v
    (by omega) (fun m => by
      rw [show (BackTrack.mk First Last (onSlots P)).IsValid = onSlots P from rfl,
        onSlots_empty, hempty]) h
  have via : ∀ a, Solution First Last P n a →
      Viable ⟨First, Last, onSlots P⟩ Start (Start + (n : Int)) (memOf Start a) :=
    fun a ha => Viable_memOf First Last P Start n a ha.1 ha.2.1 (fun l _ => hclosed a ha l)
  refine ⟨fun hv a ha => ?_, fun hv a ha => k2 hv _ (via a ha)⟩
  have e : slots (memOf Start a) Start n = a := by
    have := slots_memOf Start a
    rwa [ha.1] at this
  rcases k1 hv _ (via a ha) with hag | hby
  · rw [slots_eq_of_Agree Start n _ _ hag, e]
  · have := Lex_of_Beyond Start n _ _ hby
    rw [e] at this
    exact le_of_lt this

/-- A `NextSolution` search over such a predicate returns the least solution beyond the buffer
it was entered with, and fails only if there is none. -/
theorem next_least (First Last : Int) (P : List Int → Bool) (fuel : Nat) (Start : Int)
    (n : Nat) (st st' : Machine) (v : Bool) (hn : 0 < n)
    (hclosed : ∀ a, Solution First Last P n a → ∀ l, P (a.take l) = true)
    (h : Search ⟨First, Last, onSlots P⟩ fuel Start (Start + (n : Int))
      SolutionType.NextSolution st = some (st', v)) :
    (v = true → slots st.mem Start n < slots st'.mem Start n ∧
        ∀ a, Solution First Last P n a → slots st.mem Start n < a →
          slots st'.mem Start n ≤ a) ∧
      (v = false → ∀ a, Solution First Last P n a → ¬ slots st.mem Start n < a) := by
  obtain ⟨k1, k2⟩ := Search_next_least ⟨First, Last, onSlots P⟩ fuel Start _ st st' v
    (by omega) h
  have via : ∀ a, Solution First Last P n a →
      Viable ⟨First, Last, onSlots P⟩ Start (Start + (n : Int)) (memOf Start a) :=
    fun a ha => Viable_memOf First Last P Start n a ha.1 ha.2.1 (fun l _ => hclosed a ha l)
  have e : ∀ a, Solution First Last P n a → slots (memOf Start a) Start n = a := by
    intro a ha
    have := slots_memOf Start a
    rwa [ha.1] at this
  have by_lt : ∀ a, Solution First Last P n a → slots st.mem Start n < a →
      Beyond Start (Start + (n : Int)) st.mem (memOf Start a) := by
    intro a ha hlt
    apply Beyond_of_Lex
    rw [e a ha]
    exact hlt
  refine ⟨fun hv => ⟨?_, fun a ha hlt => ?_⟩, fun hv a ha hlt => k2 hv _ (via a ha)
    (by_lt a ha hlt)⟩
  · subst hv
    exact Lex_of_Beyond Start n _ _ (Search_next_beyond _ fuel Start _ st st' (by omega) h)
  · rcases k1 hv _ (via a ha) (by_lt a ha hlt) with hag | hby
    · rw [slots_eq_of_Agree Start n _ _ hag, e a ha]
    · have := Lex_of_Beyond Start n _ _ hby
      rw [e a ha] at this
      exact le_of_lt this

/-- A chain of `NextSolution` calls returns, in increasing order, exactly the solutions beyond
the buffer it starts from. -/
theorem enumerate_next_spec (First Last : Int) (P : List Int → Bool) (fuel : Nat) (Start : Int)
    (n : Nat) (hFL : First ≤ Last) (hn : 0 < n)
    (hclosed : ∀ a, Solution First Last P n a → ∀ l, P (a.take l) = true) :
    ∀ (calls : Nat) (st : Machine) (found : List (List Int)),
      (∀ x ∈ slots st.mem Start n, First ≤ x ∧ x ≤ Last) →
      enumerate ⟨First, Last, onSlots P⟩ fuel Start (Start + (n : Int)) calls
        SolutionType.NextSolution st = some found →
      found.Pairwise (· < ·) ∧
        ∀ a, a ∈ found ↔ (Solution First Last P n a ∧ slots st.mem Start n < a) := by
  intro calls
  induction calls with
  | zero => intro st found _ h; simp [enumerate] at h
  | succ k ih =>
    intro st found hin h
    simp only [enumerate] at h
    cases hs : Search ⟨First, Last, onSlots P⟩ fuel Start (Start + (n : Int))
        SolutionType.NextSolution st with
    | none => simp [hs] at h
    | some r =>
      obtain ⟨st1, v⟩ := r
      obtain ⟨k1, k2⟩ := next_least First Last P fuel Start n st st1 v hn hclosed hs
      cases v with
      | false =>
        simp only [hs, Option.some.injEq] at h
        subst h
        exact ⟨List.Pairwise.nil, fun a => ⟨fun hc => by simp at hc,
          fun hc => absurd hc.2 (k2 rfl a hc.1)⟩⟩
      | true =>
        simp only [hs, Option.map_eq_some', add_sub_cancel_left, Int.toNat_ofNat] at h
        obtain ⟨rest, hrest, rfl⟩ := h
        have hsol := Solution_of_Search First Last P fuel Start n _ st st1 hFL hn
          (fun _ => hin) hs
        obtain ⟨i1, i2⟩ := ih st1 rest hsol.2.1 hrest
        obtain ⟨j1, j2⟩ := k1 rfl
        refine ⟨List.pairwise_cons.mpr ⟨fun a ha => ((i2 a).mp ha).2, i1⟩, fun a => ?_⟩
        rw [List.mem_cons, i2 a]
        constructor
        · rintro (rfl | ⟨ha1, ha2⟩)
          · exact ⟨hsol, j1⟩
          · exact ⟨ha1, lt_trans j1 ha2⟩
        · rintro ⟨ha1, ha2⟩
          rcases eq_or_lt_of_le (j2 a ha1 ha2) with he | hlt
          · exact Or.inl he.symm
          · exact Or.inr ⟨ha1, hlt⟩

/-- A chain of `NextSolution` calls started within range comes to its end. -/
theorem enumerate_next_total (First Last : Int) (P : List Int → Bool) (fuel : Nat) (Start : Int)
    (n : Nat) (hFL : First ≤ Last) (hn : 0 < n) :
    ∀ (B : Nat) (st : Machine), (∀ x ∈ slots st.mem Start n, First ≤ x ∧ x ≤ Last) →
      todo ⟨First, Last, onSlots P⟩ Start n st.mem (Start + (n : Int)) ≤ B →
      domainSize ⟨First, Last, onSlots P⟩ + n + B < fuel →
      ∀ calls, B < calls →
        ∃ found, enumerate ⟨First, Last, onSlots P⟩ fuel Start (Start + (n : Int)) calls
          SolutionType.NextSolution st = some found := by
  intro B
  induction B with
  | zero =>
    intro st _ hB
    have := treeSize_pos (domainSize ⟨First, Last, onSlots P⟩)
      (n - ((Start + (n : Int)) - Start).toNat)
    unfold todo at hB
    omega
  | succ B ih =>
    intro st hin hB hf calls hc
    obtain ⟨k, rfl⟩ : ∃ k, calls = k + 1 := ⟨calls - 1, by omega⟩
    have hw := Within_of_slots ⟨First, Last, onSlots P⟩ Start n st.mem hin
    obtain ⟨⟨st1, v⟩, hs⟩ := Search_total_next ⟨First, Last, onSlots P⟩ Start n st hFL hn hw
      fuel (by omega)
    simp only [enumerate, hs]
    cases v with
    | false => exact ⟨[], rfl⟩
    | true =>
      have hm := Search_next_todo ⟨First, Last, onSlots P⟩ fuel Start n st st1 hFL hn hw hs
      have hsol := Solution_of_Search First Last P fuel Start n _ st st1 hFL hn
        (fun _ => hin) hs
      obtain ⟨rest, hrest⟩ := ih st1 hsol.2.1 (by omega) (by omega) k (by omega)
      exact ⟨slots st1.mem Start (Start + (n : Int) - Start).toNat :: rest, by
        simp only [hrest, Option.map_some']⟩

/-! ## Exhaustion -/

/-- A `NextSolution` search that fails leaves `LastValue` in every slot of the range. -/
theorem Search_next_exhausted (bt : BackTrack) (fuel : Nat) (Start End : Int)
    (st st' : Machine) (hne : Start < End)
    (h : Search bt fuel Start End SolutionType.NextSolution st = some (st', false)) :
    ∀ i, Start ≤ i → i < End → st'.mem i = bt.LastValue := by
  have tail : ∀ (s s2 : Machine) (E E2 : Int) (Found : Bool), Start < E → E ≤ End →
      (∀ i, E ≤ i → i < End → s.mem i = bt.LastValue) →
      GotoUnvisitedNode bt fuel Start E s = some (s2, E2, Found) →
      (Found = true → Start < E2 ∧ E2 ≤ End ∧
        ∀ i, E2 ≤ i → i < End → s2.mem i = bt.LastValue) ∧
      (Found = false → ∀ i, Start ≤ i → i < End → s2.mem i = bt.LastValue) := by
    intro s s2 E E2 Found hE1 hE2 hs hg
    obtain ⟨g1, g2, g3, g4, g5⟩ := GotoUnvisitedNode_spec bt fuel Start E s s2 E2 Found hg
    have hall : ∀ i, E2 ≤ i → i < End → s.mem i = bt.LastValue := by
      intro i hi1 hi2
      by_cases hc : i < E
      · exact g3 i hi1 hc
      · exact hs i (by omega) hi2
    refine ⟨fun hF => ⟨g2 hE1, by omega, fun i hi1 hi2 => ?_⟩, fun hF i hi1 hi2 => ?_⟩
    · rw [(g4 hF).2, poke_other _ _ _ (by omega)]
      exact hall i hi1 hi2
    · obtain ⟨g6, g7, g8⟩ := g5 hF
      rw [g7]
      have := g8 hE1
      by_cases hc : i = Start
      · subst hc
        rw [← g6]
        congr 1
        omega
      · exact hall i (by omega) hi2
  refine Search_rule bt fuel Start End SolutionType.NextSolution st hne
    (fun s E sv => (sv = true → Start < E ∧ E ≤ End ∧
        ∀ i, E ≤ i → i < End → s.mem i = bt.LastValue) ∧
      (sv = false → ∀ i, Start ≤ i → i < End → s.mem i = bt.LastValue))
    (fun s v => v = false → ∀ i, Start ≤ i → i < End → s.mem i = bt.LastValue)
    (fun hc => by simp at hc) ?_ ?_ ?_ ?_ ?_ st' false h rfl
  · intro _ st1 End1 Found hg
    exact tail st st1 End End1 Found hne (le_refl _) (fun i hi1 hi2 => by omega) hg
  · intro s E hpre _
    exact hpre.2 rfl
  · intro s s1 _ _ hv
    simp at hv
  · intro s E s1 hpre hn he
    obtain ⟨p1, p2, p3⟩ := hpre.1 rfl
    obtain ⟨w, -, hw2, -, -, -⟩ := NextValidValue_spec bt Start E fuel s s1 true hn
    refine ⟨fun _ => ⟨by omega, by omega, fun i hi1 hi2 => ?_⟩, fun hc => by simp at hc⟩
    rw [store_mem, poke_other _ _ _ (by omega), hw2, poke_other _ _ _ (by omega)]
    exact p3 i (by omega) hi2
  · intro s E s1 s2 End2 Found hpre hn hg
    obtain ⟨p1, p2, p3⟩ := hpre.1 rfl
    obtain ⟨w, -, hw2, -, -, -⟩ := NextValidValue_spec bt Start E fuel s s1 false hn
    exact tail s1 s2 E End2 Found p1 p2 (fun i hi1 hi2 => by
      rw [hw2, poke_other _ _ _ (by omega)]
      exact p3 i hi1 hi2) hg

/-- On a range holding `LastValue` in every slot a `NextSolution` search fails at once and
changes no slot. -/
theorem Search_next_spent (bt : BackTrack) (fuel : Nat) (Start End : Int) (st : Machine)
    (hne : Start < End) (hf : (End - Start).toNat ≤ fuel)
    (hall : ∀ i, Start ≤ i → i < End → st.mem i = bt.LastValue) :
    ∃ st', Search bt fuel Start End SolutionType.NextSolution st = some (st', false) ∧
      st'.mem = st.mem := by
  obtain ⟨⟨st1, End1, Found⟩, hg⟩ := GotoUnvisitedNode_total bt fuel Start End st hne hf
  obtain ⟨g1, g2, -, g4, g5⟩ := GotoUnvisitedNode_spec bt fuel Start End st st1 End1 Found hg
  obtain ⟨k, rfl⟩ : ∃ k, fuel = k + 1 := ⟨fuel - 1, by omega⟩
  cases Found with
  | true =>
    have := g2 hne
    exact absurd (hall (End1 - 1) (by omega) (by omega)) (g4 rfl).1
  | false =>
    refine ⟨st1, ?_, (g5 rfl).2.1⟩
    unfold Search
    rw [if_neg (by omega)]
    simp [hg, searchLoop]

/-! ## The calls of `Succ` -/

theorem SuccInRange_note (bt : BackTrack) (st : Machine) (e : Event)
    (he : ∀ p x, e = Event.succ p x → bt.FirstValue ≤ x ∧ x < bt.LastValue)
    (h : SuccInRange bt st.log) : SuccInRange bt (st.log ++ [e]) := by
  intro p x hx
  rcases List.mem_append.mp hx with h1 | h1
  · exact h p x h1
  · exact he p x (List.mem_singleton.mp h1).symm

theorem SuccInRange_NextValidValue (bt : BackTrack) (Start End : Int) :
    ∀ (fuel : Nat) (st st1 : Machine) (v : Bool),
      NextValidValue bt Start End fuel st = some (st1, v) →
      (bt.FirstValue ≤ st.mem (End - 1) ∧ st.mem (End - 1) ≤ bt.LastValue) →
      SuccInRange bt st.log → SuccInRange bt st1.log := by
  intro fuel
  induction fuel with
  | zero => intro st st1 v h; simp [NextValidValue] at h
  | succ k ih =>
    intro st st1 v h hr hl
    have l1 : SuccInRange bt (st.note (Event.isValid Start End)).log :=
      SuccInRange_note bt st _ (fun p x hc => Event.noConfusion hc) hl
    have l2 : SuccInRange bt
        ((st.note (Event.isValid Start End)).note (Event.read (End - 1))).log :=
      SuccInRange_note bt _ _ (fun p x hc => Event.noConfusion hc) l1
    simp only [NextValidValue, note_mem] at h
    split_ifs at h with h1 h2
    · simp only [Option.some.injEq, Prod.mk.injEq] at h
      obtain ⟨rfl, rfl⟩ := h
      exact l1
    · refine ih _ _ _ h ?_ ?_
      · simp only [Succ_mem, note_mem, poke_same]; omega
      · refine SuccInRange_note bt _ _ (fun p x hc => ?_) l2
        simp only [note_mem, Event.succ.injEq] at hc
        obtain ⟨-, rfl⟩ := hc
        omega
    · simp only [Option.some.injEq, Prod.mk.injEq] at h
      obtain ⟨rfl, rfl⟩ := h
      exact l2

theorem SuccInRange_backUp (bt : BackTrack) (Start : Int) :
    ∀ (fuel : Nat) (Last : Int) (st : Machine) (j : Int) (st1 : Machine),
      backUp bt Start fuel Last st = some (j, st1) →
      SuccInRange bt st.log → SuccInRange bt st1.log := by
  intro fuel
  induction fuel with
  | zero => intro Last st j st1 h; simp [backUp] at h
  | succ k ih =>
    intro Last st j st1 h hl
    have l1 : SuccInRange bt (st.note (Event.read Last)).log :=
      SuccInRange_note bt st _ (fun p x hc => Event.noConfusion hc) hl
    simp only [backUp] at h
    split_ifs at h with h1 h2
    · exact ih _ _ _ _ h l1
    · simp only [Option.some.injEq, Prod.mk.injEq] at h
      obtain ⟨rfl, rfl⟩ := h
      exact l1
    · simp only [Option.some.injEq, Prod.mk.injEq] at h
      obtain ⟨rfl, rfl⟩ := h
      exact hl

theorem SuccInRange_GotoUnvisitedNode (bt : BackTrack) (fuel : Nat) (Start End : Int)
    (st st2 : Machine) (End2 : Int) (Found : Bool)
    (h : GotoUnvisitedNode bt fuel Start End st = some (st2, End2, Found))
    (hne : Start < End) (hw : Within bt (fun _ => False) Start End st.mem)
    (hl : SuccInRange bt st.log) : SuccInRange bt st2.log := by
  unfold GotoUnvisitedNode at h
  cases hb : backUp bt Start fuel (End - 1) st with
  | none => simp [hb] at h
  | some r =>
    obtain ⟨j, st1⟩ := r
    obtain ⟨e1, e2, -, -, e5⟩ := backUp_spec bt Start fuel _ _ _ _ hb
    have l1 := SuccInRange_backUp bt Start fuel _ _ _ _ hb hl
    have l2 : SuccInRange bt (st1.note (Event.read j)).log :=
      SuccInRange_note bt st1 _ (fun p x hc => Event.noConfusion hc) l1
    simp only [hb, note_mem] at h
    split_ifs at h with h1
    · simp only [Option.some.injEq, Prod.mk.injEq] at h
      obtain ⟨rfl, -, -⟩ := h
      refine SuccInRange_note bt _ _ (fun p x hc => ?_) l2
      simp only [note_mem, Event.succ.injEq] at hc
      obtain ⟨-, rfl⟩ := hc
      have := hw j (e5 (by omega)) (Or.inl (by omega))
      rw [e1] at h1 ⊢
      omega
    · simp only [Option.some.injEq, Prod.mk.injEq] at h
      obtain ⟨rfl, -, -⟩ := h
      exact l2

/-- The driving loop, entered on a non-empty prefix within range, only calls `Succ` on slots
holding a value in `[FirstValue, LastValue)`. -/
theorem searchLoop_succInRange (bt : BackTrack) (inner : Nat) (Start SolutionEnd : Int)
    (hFL : bt.FirstValue ≤ bt.LastValue) :
    ∀ (fuel : Nat) (st : Machine) (End : Int) (sv : Bool) (st' : Machine) (v : Bool),
      (SuccInRange bt st.log ∧
        (sv = true → Start < End ∧ Within bt (fun _ => False) Start End st.mem)) →
      searchLoop bt inner Start SolutionEnd fuel st End sv = some (st', v) →
        SuccInRange bt st'.log := by
  refine searchLoop_rule bt inner Start SolutionEnd
    (fun st End sv => SuccInRange bt st.log ∧
        (sv = true → Start < End ∧ Within bt (fun _ => False) Start End st.mem))
    (fun st' _ => SuccInRange bt st'.log) ?_ ?_ ?_ ?_
  · intro st End hpre
    exact hpre.1
  · intro st st1 hpre hn
    obtain ⟨p1, p2⟩ := hpre.2 rfl
    exact SuccInRange_NextValidValue bt Start _ inner st st1 true hn
      (p2 _ (by omega) (Or.inl (by omega))) hpre.1
  · intro st End st1 hpre hn _
    obtain ⟨p1, p2⟩ := hpre.2 rfl
    refine ⟨SuccInRange_note bt _ _ (fun p x hc => Event.noConfusion hc)
      (SuccInRange_NextValidValue bt Start _ inner st st1 true hn
        (p2 _ (by omega) (Or.inl (by omega))) hpre.1), fun _ => ⟨by omega, ?_⟩⟩
    exact Within_store bt _ Start End _ hFL
      (Within_NextValidValue bt _ Start End inner st st1 true hn p2)
  · intro st End st1 st2 End2 Found hpre hn hg
    obtain ⟨p1, p2⟩ := hpre.2 rfl
    have hw1 := Within_NextValidValue bt _ Start End inner st st1 false hn p2
    have hl1 := SuccInRange_NextValidValue bt Start _ inner st st1 false hn
        (p2 _ (by omega) (Or.inl (by omega))) hpre.1
    obtain ⟨-, g2, -, -, -⟩ := GotoUnvisitedNode_spec bt inner Start End st1 st2 End2 Found hg
    exact ⟨SuccInRange_GotoUnvisitedNode bt inner Start End st1 st2 End2 Found hg p1 hw1 hl1,
      fun _ => ⟨g2 p1, Within_GotoUnvisitedNode bt _ inner Start End st1 st2 End2 Found hg hw1⟩⟩

/-- A chain of `NextSolution` calls returns buffers in strictly increasing lexicographic order,
each beyond the buffer the chain starts from. -/
theorem enumerate_next_sorted (bt : BackTrack) (fuel : Nat) (Start : Int) (n : Nat)
    (hn : 0 < n) :
    ∀ (calls : Nat) (st : Machine) (found : List (List Int)),
      enumerate bt fuel Start (Start + (n : Int)) calls SolutionType.NextSolution st
        = some found →
      found.Pairwise (· < ·) ∧ ∀ a ∈ found, slots st.mem Start n < a := by
  intro calls
  induction calls with
  | zero => intro st found h; simp [enumerate] at h
  | succ k ih =>
    intro st found h
    simp only [enumerate] at h
    cases hs : Search bt fuel Start (Start + (n : Int)) SolutionType.NextSolution st with
    | none => simp [hs] at h
    | some r =>
      obtain ⟨st1, v⟩ := r
      cases v with
      | false =>
        simp only [hs, Option.some.injEq] at h
        subst h
        exact ⟨List.Pairwise.nil, fun a ha => by simp at ha⟩
      | true =>
        simp only [hs, Option.map_eq_some', add_sub_cancel_left, Int.toNat_ofNat] at h
        obtain ⟨rest, hrest, rfl⟩ := h
        obtain ⟨i1, i2⟩ := ih st1 rest hrest
        have hlt : slots st.mem Start n < slots st1.mem Start n :=
          Lex_of_Beyond Start n _ _ (Search_next_beyond bt fuel Start _ st st1 (by omega) hs)
        refine ⟨List.pairwise_cons.mpr ⟨i2, i1⟩, fun a ha => ?_⟩
        rcases List.mem_cons.mp ha with rfl | ha'
        · exact hlt
        · exact lt_trans hlt (i2 a ha')

/-- The log of `firstChild` holds no call of `Succ` beyond those of the log it extends. -/
theorem SuccInRange_firstChild (bt : BackTrack) (Start : Int) (st : Machine)
    (hl : SuccInRange bt st.log) : SuccInRange bt (firstChild bt Start st).log := by
  unfold firstChild
  exact SuccInRange_note bt _ _ (fun p x hc => Event.noConfusion hc)
    (SuccInRange_note bt _ _ (fun p x hc => Event.noConfusion hc)
      (SuccInRange_note bt _ _ (fun p x hc => Event.noConfusion hc) hl))

/-- The calls of `Succ` made by a whole call of `operator()`. -/
theorem Search_succInRange (bt : BackTrack) (fuel : Nat) (Start End : Int)
    (type : SolutionType) (st st' : Machine) (v : Bool)
    (hFL : bt.FirstValue ≤ bt.LastValue) (hne : Start < End)
    (hmode : (type = SolutionType.FirstSolution ∧ ∀ m, bt.IsValid m Start Start = true) ∨
      (type = SolutionType.NextSolution ∧
        ∀ i, Start ≤ i → i < End → bt.FirstValue ≤ st.mem i ∧ st.mem i ≤ bt.LastValue))
    (hl : SuccInRange bt st.log)
    (h : Search bt fuel Start End type st = some (st', v)) : SuccInRange bt st'.log := by
  rcases hmode with ⟨rfl, hemp⟩ | ⟨rfl, hin⟩
  · cases fuel with
    | zero =>
      unfold Search at h
      rw [if_neg (by omega)] at h
      simp [searchLoop] at h
    | succ k =>
      rw [Search_first_unroll bt k Start End st hne hemp] at h
      exact searchLoop_succInRange bt (k + 1) Start End hFL k _ _ _ _ _
        ⟨SuccInRange_firstChild bt Start st hl, fun _ => ⟨by omega,
          Within_firstChild bt _ Start st hFL
            (fun i h1 h2 => by rcases h2 with h | h; exacts [absurd h (by omega), h.elim])⟩⟩ h
  · have hw : Within bt (fun _ => False) Start End st.mem := fun i h1 h2 => by
      rcases h2 with h | h
      exacts [hin i h1 h, h.elim]
    unfold Search at h
    rw [if_neg (by omega)] at h
    simp only at h
    cases hg : GotoUnvisitedNode bt fuel Start End st with
    | none => simp [hg] at h
    | some r =>
      obtain ⟨st1, End1, Found⟩ := r
      simp only [hg] at h
      obtain ⟨-, g2, -, -, -⟩ := GotoUnvisitedNode_spec bt fuel Start End st st1 End1 Found hg
      exact searchLoop_succInRange bt fuel Start End hFL fuel _ _ _ _ _
        ⟨SuccInRange_GotoUnvisitedNode bt fuel Start End st st1 End1 Found hg hne hw hl,
          fun _ => ⟨g2 hne, Within_GotoUnvisitedNode bt _ fuel Start End st st1 End1 Found hg hw⟩⟩
        h

/-- A predicate that rejects every non-empty range ending in `LastValue` keeps `LastValue` out
of what `operator()` returns. -/
theorem Search_no_last (bt : BackTrack) (fuel : Nat) (Start End : Int) (type : SolutionType)
    (st st' : Machine) (hne : Start < End)
    (hrej : ∀ m E, Start < E → m (E - 1) = bt.LastValue → bt.IsValid m Start E = false)
    (hin : type = SolutionType.NextSolution →
      ∀ i, Start ≤ i → i < End → st.mem i ≠ bt.LastValue)
    (h : Search bt fuel Start End type st = some (st', true)) :
    ∀ i, Start ≤ i → i < End → st'.mem i ≠ bt.LastValue := by
  have accepted : ∀ (s s1 : Machine) (E : Int), Start < E →
      NextValidValue bt Start E fuel s = some (s1, true) → s1.mem (E - 1) ≠ bt.LastValue := by
    intro s s1 E hE hn hc
    obtain ⟨w, -, -, -, hw4, -⟩ := NextValidValue_spec bt Start E fuel s s1 true hn
    have := hrej s1.mem E hE hc
    rw [hw4 rfl] at this
    exact Bool.noConfusion this
  refine Search_rule bt fuel Start End type st hne
    (fun s E _ => ∀ i, Start ≤ i → i < E - 1 → s.mem i ≠ bt.LastValue)
    (fun s v => v = true → ∀ i, Start ≤ i → i < End → s.mem i ≠ bt.LastValue)
    ?_ ?_ ?_ ?_ ?_ ?_ st' true h rfl
  · intro _ i hi1 hi2
    omega
  · intro ht st1 End1 Found hg i hi1 hi2
    obtain ⟨g1, -, -, g4, g5⟩ := GotoUnvisitedNode_spec bt fuel Start End st st1 End1 Found hg
    have : st1.mem i = st.mem i := by
      cases Found with
      | false => rw [(g5 rfl).2.1]
      | true => rw [(g4 rfl).2, poke_other _ _ _ (by omega)]
    rw [this]
    exact hin ht i hi1 (by omega)
  · intro s E _ hv
    simp at hv
  · intro s s1 hpre hn _ i hi1 hi2
    obtain ⟨w, -, hw2, -, -, -⟩ := NextValidValue_spec bt Start End fuel s s1 true hn
    by_cases hc : i = End - 1
    · subst hc
      exact accepted s s1 End hne hn
    · rw [hw2, poke_other _ _ _ hc]
      exact hpre i hi1 (by omega)
  · intro s E s1 hpre hn he i hi1 hi2
    obtain ⟨w, -, hw2, -, -, -⟩ := NextValidValue_spec bt Start E fuel s s1 true hn
    rw [store_mem, poke_other _ _ _ (by omega)]
    by_cases hc : i = E - 1
    · subst hc
      exact accepted s s1 E (by omega) hn
    · rw [hw2, poke_other _ _ _ hc]
      exact hpre i hi1 (by omega)
  · intro s E s1 s2 End2 Found hpre hn hg i hi1 hi2
    obtain ⟨w, -, hw2, -, -, -⟩ := NextValidValue_spec bt Start E fuel s s1 false hn
    obtain ⟨g1, -, -, g4, g5⟩ := GotoUnvisitedNode_spec bt fuel Start E s1 s2 End2 Found hg
    have : s2.mem i = s1.mem i := by
      cases Found with
      | false => rw [(g5 rfl).2.1]
      | true => rw [(g4 rfl).2, poke_other _ _ _ (by omega)]
    rw [this, hw2, poke_other _ _ _ (by omega)]
    exact hpre i hi1 (by omega)

/-! ## Predicates that look at the slots of their range only -/

theorem RangeOnly_onSlots (First Last : Int) (P : List Int → Bool) (Start : Int) :
    RangeOnly ⟨First, Last, onSlots P⟩ Start := by
  intro m m' E h
  show onSlots P m Start E = onSlots P m' Start E
  unfold onSlots
  rw [slots_congr m m' Start (E - Start).toNat (fun i h1 h2 => h i h1 (by omega))]

/-- A write at or after the end of a range does not change the answer on the range. -/
theorem RangeOnly_poke (bt : BackTrack) (Start : Int) (hloc : RangeOnly bt Start) (m : Mem)
    (p x k : Int) (hk : k ≤ p) : bt.IsValid (poke m p x) Start k = bt.IsValid m Start k :=
  hloc _ _ k (fun i _ hi2 => poke_other m p x (by omega))

/-- Every extension is validated before descent: a `FirstSolution` search over a predicate that
looks at its range only returns a buffer every range `[Start, k)` of which, the empty one
included, is accepted. -/
theorem Search_first_validated (bt : BackTrack) (fuel : Nat) (Start End : Int)
    (st st' : Machine) (hne : Start < End) (hloc : RangeOnly bt Start)
    (h : Search bt fuel Start End SolutionType.FirstSolution st = some (st', true)) :
    ∀ k, Start ≤ k → k ≤ End → bt.IsValid st'.mem Start k = true := by
  refine Search_rule bt fuel Start End SolutionType.FirstSolution st hne
    (fun s E _ => ∀ k, Start ≤ k → k < E → bt.IsValid s.mem Start k = true)
    (fun s v => v = true → ∀ k, Start ≤ k → k ≤ End → bt.IsValid s.mem Start k = true)
    ?_ (fun ht => SolutionType.noConfusion ht) ?_ ?_ ?_ ?_ st' true h rfl
  · intro _ k hk1 hk2
    omega
  · intro s E _ hv
    simp at hv
  · intro s s1 hpre hn _ k hk1 hk2
    obtain ⟨w, -, hw2, -, hw4, -⟩ := NextValidValue_spec bt Start End fuel s s1 true hn
    rcases eq_or_lt_of_le hk2 with he | hlt
    · rw [he]; exact hw4 rfl
    · rw [hw2, RangeOnly_poke bt Start hloc _ _ _ _ (by omega)]
      exact hpre k hk1 hlt
  · intro s E s1 hpre hn he k hk1 hk2
    obtain ⟨w, -, hw2, -, hw4, -⟩ := NextValidValue_spec bt Start E fuel s s1 true hn
    rw [store_mem, RangeOnly_poke bt Start hloc _ _ _ _ (by omega)]
    rcases eq_or_lt_of_le (show k ≤ E by omega) with he2 | hlt
    · rw [he2]; exact hw4 rfl
    · rw [hw2, RangeOnly_poke bt Start hloc _ _ _ _ (by omega)]
      exact hpre k hk1 hlt
  · intro s E s1 s2 End2 Found hpre hn hg k hk1 hk2
    obtain ⟨w, -, hw2, -, -, -⟩ := NextValidValue_spec bt Start E fuel s s1 false hn
    obtain ⟨g1, -, -, g4, g5⟩ := GotoUnvisitedNode_spec bt fuel Start E s1 s2 End2 Found hg
    have e1 : bt.IsValid s2.mem Start k = bt.IsValid s1.mem Start k := by
      cases Found with
      | false => rw [(g5 rfl).2.1]
      | true => rw [(g4 rfl).2, RangeOnly_poke bt Start hloc _ _ _ _ (by omega)]
    rw [e1, hw2, RangeOnly_poke bt Start hloc _ _ _ _ (by omega)]
    exact hpre k hk1 (by omega)

/-! ## Two runs on buffers that agree on the current prefix -/

theorem NextValidValue_sim (bt : BackTrack) (Start End : Int) (hloc : RangeOnly bt Start)
    (hne : Start < End) :
    ∀ (fuel : Nat) (s t s1 : Machine) (v : Bool), Agree Start End s.mem t.mem →
      NextValidValue bt Start End fuel s = some (s1, v) →
        ∃ t1, NextValidValue bt Start End fuel t = some (t1, v) ∧
          Agree Start End s1.mem t1.mem := by
  intro fuel
  induction fuel with
  | zero => intro s t s1 v _ h; simp [NextValidValue] at h
  | succ k ih =>
    intro s t s1 v hag h
    have e1 : bt.IsValid t.mem Start End = bt.IsValid s.mem Start End :=
      hloc _ _ End (fun i h1 h2 => hag i h1 h2)
    have e2 : t.mem (End - 1) = s.mem (End - 1) := hag (End - 1) (by omega) (by omega)
    simp only [NextValidValue, note_mem] at h ⊢
    simp only [e1, e2]
    split_ifs at h ⊢ with h1 h2
    · simp only [Option.some.injEq, Prod.mk.injEq] at h
      obtain ⟨rfl, rfl⟩ := h
      exact ⟨_, rfl, hag⟩
    · refine ih (Succ ((s.note (Event.isValid Start End)).note (Event.read (End - 1))) (End - 1))
        (Succ ((t.note (Event.isValid Start End)).note (Event.read (End - 1))) (End - 1))
        _ _ ?_ h
      intro i hi1 hi2
      simp only [Succ_mem, note_mem]
      by_cases hc : i = End - 1
      · subst hc; simp [e2]
      · rw [poke_other _ _ _ hc, poke_other _ _ _ hc]
        exact hag i hi1 hi2
    · simp only [Option.some.injEq, Prod.mk.injEq] at h
      obtain ⟨rfl, rfl⟩ := h
      exact ⟨_, rfl, hag⟩

theorem backUp_sim (bt : BackTrack) (Start : Int) :
    ∀ (fuel : Nat) (Last : Int) (s t : Machine) (j : Int) (s1 : Machine), Start ≤ Last →
      Agree Start (Last + 1) s.mem t.mem → backUp bt Start fuel Last s = some (j, s1) →
        ∃ t1, backUp bt Start fuel Last t = some (j, t1) := by
  intro fuel
  induction fuel with
  | zero => intro Last s t j s1 _ _ h; simp [backUp] at h
  | succ k ih =>
    intro Last s t j s1 hL hag h
    have e2 : t.mem Last = s.mem Last := hag Last hL (by omega)
    simp only [backUp] at h ⊢
    simp only [e2]
    split_ifs at h ⊢ with h1 h2
    · exact ih (Last - 1) (s.note (Event.read Last)) (t.note (Event.read Last)) j s1 (by omega)
        (fun i hi1 hi2 => hag i hi1 (by omega)) h
    · simp only [Option.some.injEq, Prod.mk.injEq] at h
      exact ⟨_, by rw [h.1]⟩
    · simp only [Option.some.injEq, Prod.mk.injEq] at h
      exact ⟨_, by rw [h.1]⟩

theorem GotoUnvisitedNode_sim (bt : BackTrack) (fuel : Nat) (Start End : Int)
    (s t s2 : Machine) (End2 : Int) (Found : Bool) (hne : Start < End)
    (hag : Agree Start End s.mem t.mem)
    (h : GotoUnvisitedNode bt fuel Start End s = some (s2, End2, Found)) :
    ∃ t2, GotoUnvisitedNode bt fuel Start End t = some (t2, End2, Found) ∧
      Agree Start End2 s2.mem t2.mem := by
  obtain ⟨g1, g2, g3, g4, g5⟩ := GotoUnvisitedNode_spec bt fuel Start End s s2 End2 Found h
  have hE := g2 hne
  have key : ∃ t2, GotoUnvisitedNode bt fuel Start End t = some (t2, End2, Found) := by
    unfold GotoUnvisitedNode at h ⊢
    cases hb : backUp bt Start fuel (End - 1) s with
    | none => simp [hb] at h
    | some r =>
      obtain ⟨j, s1⟩ := r
      obtain ⟨t1, ht1⟩ := backUp_sim bt Start fuel (End - 1) s t j s1 (by omega)
        (fun i hi1 hi2 => hag i hi1 (by omega)) hb
      obtain ⟨a1, a2, -, -, a5⟩ := backUp_spec bt Start fuel _ _ _ _ hb
      obtain ⟨b1, -, -, -, -⟩ := backUp_spec bt Start fuel _ _ _ _ ht1
      have e2 : t.mem j = s.mem j := hag j (a5 (by omega)) (by omega)
      simp only [hb, note_mem, a1] at h
      simp only [ht1, note_mem, b1, e2]
      split_ifs at h ⊢ with h1
      · simp only [Option.some.injEq, Prod.mk.injEq] at h
        exact ⟨_, by rw [h.2.1, h.2.2]⟩
      · simp only [Option.some.injEq, Prod.mk.injEq] at h
        exact ⟨_, by rw [h.2.1, h.2.2]⟩
  obtain ⟨t2, ht2⟩ := key
  refine ⟨t2, ht2, ?_⟩
  obtain ⟨-, -, -, k4, k5⟩ := GotoUnvisitedNode_spec bt fuel Start End t t2 End2 Found ht2
  intro i hi1 hi2
  cases Found with
  | false =>
    rw [(g5 rfl).2.1, (k5 rfl).2.1]
    exact hag i hi1 (by omega)
  | true =>
    rw [(g4 rfl).2, (k4 rfl).2]
    by_cases hc : i = End2 - 1
    · subst hc
      rw [poke_same, poke_same, hag (End2 - 1) hi1 (by omega)]
    · rw [poke_other _ _ _ hc, poke_other _ _ _ hc]
      exact hag i hi1 (by omega)

/-- Two runs of the driving loop entered on memories that agree on the current prefix stay in
step: they return on the same fuel, with the same flag, and on success with the same range. -/
theorem searchLoop_sim (bt : BackTrack) (inner : Nat) (Start SolutionEnd : Int)
    (hloc : RangeOnly bt Start) :
    ∀ (fuel : Nat) (s t : Machine) (End : Int) (sv : Bool) (s' : Machine) (v : Bool),
      (sv = true → Start < End ∧ Agree Start End s.mem t.mem) →
      searchLoop bt inner Start SolutionEnd fuel s End sv = some (s', v) →
        ∃ t', searchLoop bt inner Start SolutionEnd fuel t End sv = some (t', v) ∧
          (v = true → Agree Start SolutionEnd s'.mem t'.mem) := by
  intro fuel
  induction fuel with
  | zero => intro s t End sv s' v _ h; simp [searchLoop] at h
  | succ k ih =>
    intro s t End sv s' v hpre h
    cases sv with
    | false =>
      simp only [searchLoop, Bool.false_eq_true, if_false, Option.some.injEq,
        Prod.mk.injEq] at h ⊢
      exact ⟨t, ⟨rfl, h.2⟩, fun hv => by rw [← h.2] at hv; simp at hv⟩
    | true =>
      obtain ⟨p1, p2⟩ := hpre rfl
      simp only [searchLoop, if_true] at h ⊢
      cases hn : NextValidValue bt Start End inner s with
      | none => simp [hn] at h
      | some r =>
        obtain ⟨s1, b⟩ := r
        obtain ⟨t1, ht1, hag1⟩ := NextValidValue_sim bt Start End hloc p1 inner s t s1 b p2 hn
        simp only [hn] at h
        simp only [ht1]
        cases b with
        | true =>
          simp only at h ⊢
          split_ifs at h ⊢ with he
          · simp only [Option.some.injEq, Prod.mk.injEq] at h
            obtain ⟨rfl, rfl⟩ := h
            subst he
            exact ⟨t1, rfl, fun _ => hag1⟩
          · refine ih _ _ _ _ _ _ (fun _ => ⟨by omega, fun i hi1 hi2 => ?_⟩) h
            simp only [store_mem]
            by_cases hc : i = End
            · subst hc; simp
            · rw [poke_other _ _ _ hc, poke_other _ _ _ hc]
              exact hag1 i hi1 (by omega)
        | false =>
          simp only at h ⊢
          cases hg : GotoUnvisitedNode bt inner Start End s1 with
          | none => simp [hg] at h
          | some r2 =>
            obtain ⟨s2, End2, Found⟩ := r2
            obtain ⟨t2, ht2, hag2⟩ := GotoUnvisitedNode_sim bt inner Start End s1 t1 s2 End2
              Found p1 hag1 hg
            obtain ⟨-, g2, -, -, -⟩ := GotoUnvisitedNode_spec bt inner Start End s1 s2 End2
              Found hg
            simp only [hg] at h
            simp only [ht2]
            exact ih _ _ _ _ _ _ (fun _ => ⟨g2 p1, hag2⟩) h

/-- Two `FirstSolution` searches over a predicate that looks at its range only and accepts the
empty range do not depend on what the buffers held: they return on the same fuel, with the same
flag, and on success with the same range. -/
theorem Search_first_sim (bt : BackTrack) (fuel : Nat) (Start End : Int) (s t s' : Machine)
    (v : Bool) (hne : Start < End) (hloc : RangeOnly bt Start)
    (hempty : ∀ m, bt.IsValid m Start Start = true)
    (h : Search bt fuel Start End SolutionType.FirstSolution s = some (s', v)) :
    ∃ t', Search bt fuel Start End SolutionType.FirstSolution t = some (t', v) ∧
      (v = true → Agree Start End s'.mem t'.mem) := by
  cases fuel with
  | zero =>
    unfold Search at h
    rw [if_neg (by omega)] at h
    simp [searchLoop] at h
  | succ k =>
    rw [Search_first_unroll bt k Start End s hne hempty] at h
    rw [Search_first_unroll bt k Start End t hne hempty]
    refine searchLoop_sim bt (k + 1) Start End hloc k _ _ _ _ _ _
      (fun _ => ⟨by omega, fun i hi1 hi2 => ?_⟩) h
    have : i = Start := by omega
    subst this
    rw [firstChild_mem, firstChild_mem, poke_same, poke_same]

/-! ## The machine reached when the fuel runs out -/

theorem backUp_reached (bt : BackTrack) (Start : Int) :
    ∀ (fuel : Nat) (Last : Int) (st : Machine) (j : Int) (st1 : Machine),
      backUp bt Start fuel Last st = some (j, st1) →
        backUpReached bt Start fuel Last st = st1 := by
  intro fuel
  induction fuel with
  | zero => intro Last st j st1 h; simp [backUp] at h
  | succ k ih =>
    intro Last st j st1 h
    simp only [backUp] at h
    simp only [backUpReached]
    split_ifs at h ⊢ with h1 h2
    · exact ih _ _ _ _ h
    · simp only [Option.some.injEq, Prod.mk.injEq] at h
      exact h.2
    · simp only [Option.some.injEq, Prod.mk.injEq] at h
      exact h.2

theorem NextValidValue_reached (bt : BackTrack) (Start End : Int) :
    ∀ (fuel : Nat) (st st1 : Machine) (v : Bool),
      NextValidValue bt Start End fuel st = some (st1, v) →
        NextValidValueReached bt Start End fuel st = st1 := by
  intro fuel
  induction fuel with
  | zero => intro st st1 v h; simp [NextValidValue] at h
  | succ k ih =>
    intro st st1 v h
    simp only [NextValidValue] at h
    simp only [NextValidValueReached]
    split_ifs at h ⊢ with h1 h2
    · simp only [Option.some.injEq, Prod.mk.injEq] at h
      exact h.1
    · exact ih _ _ _ h
    · simp only [Option.some.injEq, Prod.mk.injEq] at h
      exact h.1

theorem GotoUnvisitedNode_reached (bt : BackTrack) (fuel : Nat) (Start End : Int)
    (st st2 : Machine) (End2 : Int) (Found : Bool)
    (h : GotoUnvisitedNode bt fuel Start End st = some (st2, End2, Found)) :
    GotoUnvisitedNodeReached bt fuel Start End st = st2 := by
  unfold GotoUnvisitedNode at h
  unfold GotoUnvisitedNodeReached
  cases hb : backUp bt Start fuel (End - 1) st with
  | none => simp [hb] at h
  | some r =>
    obtain ⟨j, st1⟩ := r
    simp only [hb] at h ⊢
    split_ifs at h ⊢ with h1
    · simp only [Option.some.injEq, Prod.mk.injEq] at h
      exact h.1
    · simp only [Option.some.injEq, Prod.mk.injEq] at h
      exact h.1

theorem searchLoop_reached (bt : BackTrack) (inner : Nat) (Start SolutionEnd : Int) :
    ∀ (fuel : Nat) (st : Machine) (End : Int) (sv : Bool) (st' : Machine) (v : Bool),
      searchLoop bt inner Start SolutionEnd fuel st End sv = some (st', v) →
        searchLoopReached bt inner Start SolutionEnd fuel st End sv = st' := by
  intro fuel
  induction fuel with
  | zero => intro st End sv st' v h; simp [searchLoop] at h
  | succ k ih =>
    intro st End sv st' v h
    cases sv with
    | false =>
      simp only [searchLoop, Bool.false_eq_true, if_false, Option.some.injEq,
        Prod.mk.injEq] at h
      simp only [searchLoopReached, Bool.false_eq_true, if_false]
      exact h.1
    | true =>
      simp only [searchLoop, if_true] at h
      simp only [searchLoopReached, if_true]
      cases hn : NextValidValue bt Start End inner st with
      | none => simp [hn] at h
      | some r =>
        obtain ⟨st1, b⟩ := r
        cases b with
        | true =>
          simp only [hn] at h ⊢
          split_ifs at h ⊢ with he
          · simp only [Option.some.injEq, Prod.mk.injEq] at h
            exact h.1
          · exact ih _ _ _ _ _ h
        | false =>
          simp only [hn] at h ⊢
          cases hg : GotoUnvisitedNode bt inner Start End st1 with
          | none => simp [hg] at h
          | some r2 =>
            obtain ⟨st2, End2, Found⟩ := r2
            simp only [hg] at h ⊢
            exact ih _ _ _ _ _ h

/-- When the call returns, the machine reached is the machine returned. -/
theorem Search_reached (bt : BackTrack) (fuel : Nat) (Start End : Int) (type : SolutionType)
    (st st' : Machine) (v : Bool) (h : Search bt fuel Start End type st = some (st', v)) :
    SearchReached bt fuel Start End type st = st' := by
  unfold Search at h
  unfold SearchReached
  split_ifs at h ⊢ with h1
  · simp only [Option.some.injEq, Prod.mk.injEq] at h
    exact h.1
  · cases type with
    | FirstSolution => exact searchLoop_reached bt fuel Start End fuel _ _ _ _ _ h
    | NextSolution =>
      simp only at h ⊢
      cases hg : GotoUnvisitedNode bt fuel Start End st with
      | none => simp [hg] at h
      | some r =>
        obtain ⟨st1, End1, Found⟩ := r
        simp only [hg] at h ⊢
        exact searchLoop_reached bt fuel Start End fuel _ _ _ _ _ h

/-! ## Every access stays within the caller's range -/

theorem Inside_note (Start End : Int) (st : Machine) (e : Event) (he : e.inside Start End)
    (h : Inside Start End st.log) : Inside Start End (st.log ++ [e]) := by
  intro x hx
  rcases List.mem_append.mp hx with h1 | h1
  · exact h x h1
  · rw [List.mem_singleton.mp h1]
    exact he

theorem backUpReached_inside (bt : BackTrack) (Start End : Int) :
    ∀ (fuel : Nat) (Last : Int) (st : Machine), Start ≤ Last → Last < End →
      Inside Start End st.log → Inside Start End (backUpReached bt Start fuel Last st).log := by
  intro fuel
  induction fuel with
  | zero => intro Last st _ _ h; exact h
  | succ k ih =>
    intro Last st h1 h2 hl
    have l1 : Inside Start End (st.note (Event.read Last)).log :=
      Inside_note Start End st _ ⟨h1, h2⟩ hl
    simp only [backUpReached]
    split_ifs with h3 h4
    · exact ih _ _ (by omega) (by omega) l1
    · exact l1
    · exact hl

theorem NextValidValueReached_inside (bt : BackTrack) (Start E End : Int) (h1 : Start < E)
    (h2 : E ≤ End) :
    ∀ (fuel : Nat) (st : Machine), Inside Start End st.log →
      Inside Start End (NextValidValueReached bt Start E fuel st).log := by
  intro fuel
  induction fuel with
  | zero => intro st h; exact h
  | succ k ih =>
    intro st hl
    have l1 : Inside Start End (st.note (Event.isValid Start E)).log :=
      Inside_note Start End st _ ⟨rfl, by omega, h2⟩ hl
    have l2 : Inside Start End
        ((st.note (Event.isValid Start E)).note (Event.read (E - 1))).log :=
      Inside_note Start End _ _ ⟨by omega, by omega⟩ l1
    simp only [NextValidValueReached]
    split_ifs with h3 h4
    · exact l1
    · exact ih _ (Inside_note Start End _ _ ⟨by omega, by omega⟩ l2)
    · exact l2

theorem GotoUnvisitedNodeReached_inside (bt : BackTrack) (fuel : Nat) (Start E End : Int)
    (st : Machine) (h1 : Start < E) (h2 : E ≤ End) (hl : Inside Start End st.log) :
    Inside Start End (GotoUnvisitedNodeReached bt fuel Start E st).log := by
  have l0 := backUpReached_inside bt Start End fuel (E - 1) st (by omega) (by omega) hl
  unfold GotoUnvisitedNodeReached
  cases hb : backUp bt Start fuel (E - 1) st with
  | none => exact l0
  | some r =>
    obtain ⟨j, st1⟩ := r
    obtain ⟨-, a2, -, -, a5⟩ := backUp_spec bt Start fuel _ _ _ _ hb
    rw [backUp_reached bt Start fuel _ _ _ _ hb] at l0
    have hj := a5 (by omega)
    have l1 : Inside Start End (st1.note (Event.read j)).log :=
      Inside_note Start End st1 _ ⟨hj, by omega⟩ l0
    simp only
    split_ifs with h3
    · exact Inside_note Start End _ _ ⟨hj, by omega⟩ l1
    · exact l1

theorem searchLoopReached_inside (bt : BackTrack) (inner : Nat) (Start End : Int) :
    ∀ (fuel : Nat) (st : Machine) (E : Int) (sv : Bool), (sv = true → Start < E ∧ E ≤ End) →
      Inside Start End st.log →
        Inside Start End (searchLoopReached bt inner Start End fuel st E sv).log := by
  intro fuel
  induction fuel with
  | zero => intro st E sv _ h; exact h
  | succ k ih =>
    intro st E sv hpre hl
    cases sv with
    | false => simpa [searchLoopReached] using hl
    | true =>
      obtain ⟨p1, p2⟩ := hpre rfl
      have l1 := NextValidValueReached_inside bt Start E End p1 p2 inner st hl
      simp only [searchLoopReached, if_true]
      cases hn : NextValidValue bt Start E inner st with
      | none => exact l1
      | some r =>
        obtain ⟨st1, b⟩ := r
        rw [NextValidValue_reached bt Start E inner st st1 b hn] at l1
        cases b with
        | true =>
          simp only
          split_ifs with he
          · exact l1
          · exact ih _ _ _ (fun _ => ⟨by omega, by omega⟩)
              (Inside_note Start End _ _ ⟨by omega, by omega⟩ l1)
        | false =>
          simp only
          have l2 := GotoUnvisitedNodeReached_inside bt inner Start E End st1 p1 p2 l1
          cases hg : GotoUnvisitedNode bt inner Start E st1 with
          | none => exact l2
          | some r2 =>
            obtain ⟨st2, End2, Found⟩ := r2
            rw [GotoUnvisitedNode_reached bt inner Start E st1 st2 End2 Found hg] at l2
            obtain ⟨g1, g2, -, -, -⟩ := GotoUnvisitedNode_spec bt inner Start E st1 st2 End2
              Found hg
            exact ih _ _ _ (fun _ => ⟨g2 p1, by omega⟩) l2

/-- Bounds safety of a whole call, however far it gets: in `NextSolution` mode, and in
`FirstSolution` mode with a predicate that accepts the empty range, every event of the log of
the machine reached stays within the caller's range. -/
theorem SearchReached_inside (bt : BackTrack) (fuel : Nat) (Start End : Int)
    (type : SolutionType) (st : Machine) (hne : Start < End)
    (hmode : type = SolutionType.FirstSolution → ∀ m, bt.IsValid m Start Start = true)
    (hl : Inside Start End st.log) :
    Inside Start End (SearchReached bt fuel Start End type st).log := by
  unfold SearchReached
  rw [if_neg (by omega)]
  cases type with
  | FirstSolution =>
    simp only
    have l1 : Inside Start End (st.store Start bt.FirstValue).log :=
      Inside_note Start End st _ ⟨le_refl _, hne⟩ hl
    cases fuel with
    | zero => exact l1
    | succ k =>
      simp only [searchLoopReached, if_true,
        NextValidValue_accepted bt Start Start k _ (hmode rfl _)]
      rw [if_neg (by omega)]
      refine searchLoopReached_inside bt (k + 1) Start End k _ _ _
        (fun _ => ⟨by omega, by omega⟩) ?_
      exact Inside_note Start End _ _ ⟨le_refl _, hne⟩
        (Inside_note Start End _ _ ⟨rfl, le_refl _, by omega⟩ l1)
  | NextSolution =>
    simp only
    have l2 := GotoUnvisitedNodeReached_inside bt fuel Start End End st hne (le_refl _) hl
    cases hg : GotoUnvisitedNode bt fuel Start End st with
    | none => exact l2
    | some r =>
      obtain ⟨st1, End1, Found⟩ := r
      rw [GotoUnvisitedNode_reached bt fuel Start End st st1 End1 Found hg] at l2
      obtain ⟨g1, g2, -, -, -⟩ := GotoUnvisitedNode_spec bt fuel Start End st st1 End1 Found hg
      exact searchLoopReached_inside bt fuel Start End fuel _ _ _ (fun _ => ⟨g2 hne, g1⟩) l2

/-! ## The claims -/

/-- C1. Soundness of Search: on a non-empty range `[Start, End)`, in either mode, whenever
`operator()` returns with `Valid = true` the predicate `IsValid` holds of the memory as it is at
return, over the range `[Start, End)` with `End` the caller's original `End`. -/
theorem search_sound (bt : BackTrack) (fuel : Nat) (Start End : Int) (type : SolutionType)
    (st st' : Machine) (hne : Start < End)
    (h : Search bt fuel Start End type st = some (st', true)) :
    bt.IsValid st'.mem Start End = true :=
  Search_valid bt fuel Start End type st st' hne h

/-- Witness for C1: the `FirstSolution` search of `exDistinct` on a buffer of two slots. -/
theorem search_sound_witness :
    (0 : Int) < 2 ∧
      ∃ st', Search exDistinct 20 0 2 SolutionType.FirstSolution (Machine.ofList [7, 7])
          = some (st', true) ∧ exDistinct.IsValid st'.mem 0 2 = true :=
  ⟨by decide, _, rfl,
    search_sound exDistinct 20 0 2 SolutionType.FirstSolution _ _ (by decide) rfl⟩

/-- C2. Enumeration completeness: for `First ≤ Last`, a length `n ≥ 1` and a predicate on the
slots of the range that accepts the empty list and every prefix of each solution, one
`FirstSolution` call followed by `NextSolution` calls on the same buffer until `Valid = false`
comes to its end on enough fuel and returns a list without duplicates, in increasing
lexicographic order, whose members are exactly the solutions: the lists of `n` slots, each
between `First` and `Last` inclusive, that the predicate accepts. -/
theorem enumeration_complete (First Last : Int) (P : List Int → Bool) (Start : Int) (n : Nat)
    (st : Machine) (hFL : First ≤ Last) (hn : 1 ≤ n) (hempty : P [] = true)
    (hclosed : ∀ a, Solution First Last P n a → ∀ l, P (a.take l) = true) :
    ∃ fuel0 calls0, ∀ fuel calls, fuel0 ≤ fuel → calls0 ≤ calls →
      ∃ found, enumerate ⟨First, Last, onSlots P⟩ fuel Start (Start + (n : Int)) calls
          SolutionType.FirstSolution st = some found ∧
        found.Nodup ∧ found.Pairwise (List.Lex (· < ·)) ∧
        ∀ a, a ∈ found ↔ Solution First Last P n a := by
  have hemp : ∀ m, (BackTrack.mk First Last (onSlots P)).IsValid m Start Start = true :=
    fun m => by
      rw [show (BackTrack.mk First Last (onSlots P)).IsValid = onSlots P from rfl,
        onSlots_empty, hempty]
  refine ⟨domainSize ⟨First, Last, onSlots P⟩ + n
      + treeSize (domainSize ⟨First, Last, onSlots P⟩) n + 1,
    treeSize (domainSize ⟨First, Last, onSlots P⟩) n + 2, fun fuel calls hf hc => ?_⟩
  obtain ⟨k, rfl⟩ : ∃ k, calls = k + 1 := ⟨calls - 1, by omega⟩
  obtain ⟨⟨st1, v⟩, hs⟩ := Search_total_first ⟨First, Last, onSlots P⟩ Start n st hFL hn hemp
    fuel (by omega)
  obtain ⟨k1, k2⟩ := first_least First Last P fuel Start n st st1 v hn hempty hclosed hs
  simp only [enumerate, hs]
  cases v with
  | false =>
    exact ⟨[], rfl, List.nodup_nil, List.Pairwise.nil,
      fun a => ⟨fun hc => by simp at hc, fun hc => absurd hc (k2 rfl a)⟩⟩
  | true =>
    have hsol := Solution_of_Search First Last P fuel Start n _ st st1 hFL hn
      (fun ht => SolutionType.noConfusion ht) hs
    have hm := Search_first_todo ⟨First, Last, onSlots P⟩ fuel Start n st st1 hFL hn hemp hs
    obtain ⟨rest, hrest⟩ := enumerate_next_total First Last P fuel Start n hFL hn
      (treeSize (domainSize ⟨First, Last, onSlots P⟩) n) st1 hsol.2.1 (by omega) (by omega)
      k (by omega)
    obtain ⟨i1, i2⟩ := enumerate_next_spec First Last P fuel Start n hFL hn hclosed k st1 rest
      hsol.2.1 hrest
    have hp : (slots st1.mem Start n :: rest).Pairwise (· < ·) :=
      List.pairwise_cons.mpr ⟨fun a ha => ((i2 a).mp ha).2, i1⟩
    refine ⟨slots st1.mem Start n :: rest, by simp [hrest], hp.nodup, hp, fun a => ?_⟩
    rw [List.mem_cons, i2 a]
    constructor
    · rintro (rfl | ⟨ha1, -⟩)
      · exact hsol
      · exact ha1
    · intro ha
      rcases eq_or_lt_of_le (k1 rfl a ha) with he | hlt
      · exact Or.inl he.symm
      · exact Or.inr ⟨ha, hlt⟩

/-- Witness for C2: the binary strings of length two, `First = 0`, `Last = 1`, every list being
accepted. -/
theorem enumeration_complete_witness :
    ((0 : Int) ≤ 1 ∧ 1 ≤ 2) ∧
      ∃ fuel0 calls0, ∀ fuel calls, fuel0 ≤ fuel → calls0 ≤ calls →
        ∃ found, enumerate ⟨0, 1, onSlots (fun _ => true)⟩ fuel 0 (0 + ((2 : Nat) : Int)) calls
            SolutionType.FirstSolution (Machine.ofList [5, 5]) = some found ∧
          found.Nodup ∧ found.Pairwise (List.Lex (· < ·)) ∧
          ∀ a, a ∈ found ↔ Solution 0 1 (fun _ => true) 2 a :=
  ⟨by decide, enumeration_complete 0 1 (fun _ => true) 0 2 (Machine.ofList [5, 5]) (by decide)
    (by decide) rfl (fun _ _ _ => rfl)⟩

/-- C3, as stated, fails: `exOnly01` accepts the assignment `[0, 1]`, whose slots lie in
`[First, Last) = [0, 2)`, but rejects its prefix `[0]`; its `FirstSolution` search on two slots
returns `Valid = false`, and no amount of fuel makes it return `Valid = true`. -/
theorem first_solution_misses :
    (∃ a : List Int, a.length = 2 ∧ (∀ x ∈ a, (0 : Int) ≤ x ∧ x < 2) ∧
        exOnly01.IsValid (memOf 0 a) 0 2 = true) ∧
      (∃ st', Search exOnly01 20 0 2 SolutionType.FirstSolution (Machine.ofList [0, 0])
        = some (st', false)) ∧
      ∀ fuel st', Search exOnly01 fuel 0 2 SolutionType.FirstSolution (Machine.ofList [0, 0])
        ≠ some (st', true) := by
  have run : ∃ st', Search exOnly01 20 0 2 SolutionType.FirstSolution (Machine.ofList [0, 0])
      = some (st', false) := ⟨_, rfl⟩
  refine ⟨⟨[0, 1], rfl, by decide, by decide⟩, run, fun fuel st' hc => ?_⟩
  obtain ⟨st2, h2⟩ := run
  have := Search_fuel_irrelevant exOnly01 fuel 20 0 2 _ _ _ _ hc h2
  simp at this

/-- C3, amended: when some assignment of length `n ≥ 1` with all slots in `[First, Last)` is
accepted together with each of its prefixes, the empty one included, `operator()` in
`FirstSolution` mode returns, on enough fuel, `Valid = true` with a buffer the predicate
accepts. -/
theorem first_solution_found (First Last : Int) (P : List Int → Bool) (Start : Int) (n : Nat)
    (st : Machine) (hn : 1 ≤ n)
    (hex : ∃ a : List Int, a.length = n ∧ (∀ x ∈ a, First ≤ x ∧ x < Last) ∧
      ∀ l, P (a.take l) = true) :
    ∃ fuel0, ∀ fuel, fuel0 ≤ fuel →
      ∃ st', Search ⟨First, Last, onSlots P⟩ fuel Start (Start + (n : Int))
          SolutionType.FirstSolution st = some (st', true) ∧
        P (slots st'.mem Start n) = true := by
  obtain ⟨a, ha1, ha2, ha3⟩ := hex
  have hFL : First ≤ Last := by
    cases a with
    | nil => simp at ha1; omega
    | cons x xs => have := ha2 x (List.mem_cons_self _ _); omega
  have hemp : ∀ m, (BackTrack.mk First Last (onSlots P)).IsValid m Start Start = true :=
    fun m => by
      rw [show (BackTrack.mk First Last (onSlots P)).IsValid = onSlots P from rfl,
        onSlots_empty]
      exact ha3 0
  refine ⟨domainSize ⟨First, Last, onSlots P⟩ + n
      + treeSize (domainSize ⟨First, Last, onSlots P⟩) n + 1, fun fuel hf => ?_⟩
  obtain ⟨⟨st1, v⟩, hs⟩ := Search_total_first ⟨First, Last, onSlots P⟩ Start n st hFL hn hemp
    fuel (by omega)
  obtain ⟨-, k2⟩ := Search_first_least ⟨First, Last, onSlots P⟩ fuel Start _ st st1 v
    (by omega) hemp hs
  cases v with
  | false =>
    exact absurd (Viable_memOf First Last P Start n a ha1
      (fun x hx => ⟨(ha2 x hx).1, le_of_lt (ha2 x hx).2⟩) (fun l _ => ha3 l)) (k2 rfl _)
  | true =>
    refine ⟨st1, hs, ?_⟩
    have := Search_valid ⟨First, Last, onSlots P⟩ fuel Start _ _ st st1 (by omega) hs
    rwa [show (BackTrack.mk First Last (onSlots P)).IsValid = onSlots P from rfl,
      onSlots_full] at this

/-- Witness for the amended C3: values `0 .. 2`, two pairwise distinct slots, the assignment
`[0, 1]`. -/
theorem first_solution_found_witness :
    (1 ≤ 2 ∧ ∃ a : List Int, a.length = 2 ∧ (∀ x ∈ a, (0 : Int) ≤ x ∧ x < 2) ∧
        ∀ l, decide (a.take l).Nodup = true) ∧
      ∃ fuel0, ∀ fuel, fuel0 ≤ fuel →
        ∃ st', Search ⟨0, 2, onSlots (fun l => decide l.Nodup)⟩ fuel 0 (0 + ((2 : Nat) : Int))
            SolutionType.FirstSolution (Machine.ofList [7, 7]) = some (st', true) ∧
          decide (slots st'.mem 0 2).Nodup = true :=
  have hex : ∃ a : List Int, a.length = 2 ∧ (∀ x ∈ a, (0 : Int) ≤ x ∧ x < 2) ∧
      ∀ l, decide (a.take l).Nodup = true :=
    ⟨[0, 1], rfl, by decide, fun l => by rcases l with _ | _ | l <;> simp⟩
  ⟨⟨by decide, hex⟩,
    first_solution_found 0 2 (fun l => decide l.Nodup) 0 2 (Machine.ofList [7, 7])
      (by decide) hex⟩

/-- C4. No repetition, lexicographic order: for `First ≤ Last` and a non-empty range whose slots
all lie between `First` and `Last` on entry, whenever `operator()` in `NextSolution` mode returns
`Valid = true` the returned buffer is strictly greater, in lexicographic order, than the buffer
on entry, and its slots again lie between `First` and `Last`; so the buffers returned by a chain
of `NextSolution` calls are strictly increasing, hence pairwise different. -/
theorem next_solution_increases (bt : BackTrack) (fuel : Nat) (Start : Int) (n : Nat)
    (st : Machine) (hFL : bt.FirstValue ≤ bt.LastValue) (hn : 1 ≤ n)
    (hin : ∀ i, Start ≤ i → i < Start + (n : Int) →
      bt.FirstValue ≤ st.mem i ∧ st.mem i ≤ bt.LastValue) :
    (∀ st', Search bt fuel Start (Start + (n : Int)) SolutionType.NextSolution st
        = some (st', true) →
      List.Lex (· < ·) (slots st.mem Start n) (slots st'.mem Start n) ∧
        ∀ i, Start ≤ i → i < Start + (n : Int) →
          bt.FirstValue ≤ st'.mem i ∧ st'.mem i ≤ bt.LastValue) ∧
      (∀ calls found,
        enumerate bt fuel Start (Start + (n : Int)) calls SolutionType.NextSolution st
          = some found →
        found.Pairwise (List.Lex (· < ·)) ∧ found.Nodup) := by
  refine ⟨fun st' h => ⟨Lex_of_Beyond Start n _ _
      (Search_next_beyond bt fuel Start _ st st' (by omega) h), fun i hi1 hi2 => ?_⟩,
    fun calls found h => ?_⟩
  · exact Search_within bt fuel Start _ _ st st' true (fun _ => False) hFL (by omega)
      (fun j hj1 hj2 => by
        rcases hj2 with hf | ⟨-, hlt⟩
        exacts [hf.elim, hin j hj1 hlt]) h i hi1 (Or.inr ⟨rfl, hi2⟩)
  · have := (enumerate_next_sorted bt fuel Start n (by omega) calls st found h).1
    exact ⟨this, this.nodup⟩

/-- Witness for C4: after `[0, 1]` the engine `exDistinct` returns a greater buffer. -/
theorem next_solution_increases_witness :
    ∃ st', Search exDistinct 20 0 (0 + ((2 : Nat) : Int)) SolutionType.NextSolution
        (Machine.ofList [0, 1]) = some (st', true) ∧
      List.Lex (· < ·) (slots (Machine.ofList [0, 1]).mem 0 2) (slots st'.mem 0 2) :=
  ⟨_, rfl, ((next_solution_increases exDistinct 20 0 2 (Machine.ofList [0, 1]) (by decide)
    (by decide) (fun i h1 h2 => by
      have : i = 0 ∨ i = 1 := by omega
      rcases this with rfl | rfl <;> decide)).1 _ rfl).1⟩

/-- C5. Idempotent exhaustion: on a non-empty range, if `operator()` in `NextSolution` mode
returns `Valid = false`, then a further `NextSolution` call on the buffer it left (any machine
`t` holding that memory, on any fuel of at least the length of the range) also returns
`Valid = false` and leaves the memory unchanged; the memory being unchanged, the same holds of
every call after that one. -/
theorem exhaustion_idempotent (bt : BackTrack) (fuel : Nat) (Start End : Int)
    (st st' : Machine) (hne : Start < End)
    (h : Search bt fuel Start End SolutionType.NextSolution st = some (st', false)) :
    ∀ (t : Machine) (fuel2 : Nat), t.mem = st'.mem → (End - Start).toNat ≤ fuel2 →
      ∃ t', Search bt fuel2 Start End SolutionType.NextSolution t = some (t', false) ∧
        t'.mem = t.mem := by
  intro t fuel2 ht hf
  refine Search_next_spent bt fuel2 Start End t hne hf (fun i hi1 hi2 => ?_)
  rw [ht]
  exact Search_next_exhausted bt fuel Start End st st' hne h i hi1 hi2

/-- Witness for C5: `exDistinct` entered in `NextSolution` mode on `[2, 1]` is exhausted, and
stays so. -/
theorem exhaustion_idempotent_witness :
    ∃ st', Search exDistinct 20 0 2 SolutionType.NextSolution (Machine.ofList [2, 1])
        = some (st', false) ∧
      ∃ t', Search exDistinct 20 0 2 SolutionType.NextSolution st' = some (t', false) ∧
        t'.mem = st'.mem :=
  ⟨_, rfl, exhaustion_idempotent exDistinct 20 0 2 (Machine.ofList [2, 1]) _ (by decide) rfl
    _ 20 rfl (by decide)⟩

/-- C6. Succ precondition: for `First ≤ Last` and a non-empty range, a `FirstSolution` search
whose predicate accepts the empty range, and a `NextSolution` search entered with every slot of
the range between `First` and `Last`, return on enough fuel, and every call of `Succ` they make
is on a slot whose value `x` at the call satisfies `First ≤ x < Last`. -/
theorem succ_precondition (bt : BackTrack) (Start End : Int) (type : SolutionType)
    (st : Machine) (hFL : bt.FirstValue ≤ bt.LastValue) (hne : Start < End)
    (hlog : st.log = [])
    (hmode : (type = SolutionType.FirstSolution ∧ ∀ m, bt.IsValid m Start Start = true) ∨
      (type = SolutionType.NextSolution ∧
        ∀ i, Start ≤ i → i < End → bt.FirstValue ≤ st.mem i ∧ st.mem i ≤ bt.LastValue)) :
    (∃ fuel0, ∀ fuel, fuel0 ≤ fuel → ∃ r, Search bt fuel Start End type st = some r) ∧
      ∀ fuel st' v, Search bt fuel Start End type st = some (st', v) →
        ∀ p x, Event.succ p x ∈ st'.log → bt.FirstValue ≤ x ∧ x < bt.LastValue := by
  constructor
  · obtain ⟨n, rfl⟩ : ∃ n : Nat, End = Start + (n : Int) := ⟨(End - Start).toNat, by omega⟩
    rcases hmode with ⟨rfl, hemp⟩ | ⟨rfl, hin⟩
    · exact ⟨domainSize bt + n + treeSize (domainSize bt) n + 1, fun fuel hf =>
        Search_total_first bt Start n st hFL (by omega) hemp fuel (by omega)⟩
    · exact ⟨domainSize bt + n + todo bt Start n st.mem (Start + (n : Int)) + 1, fun fuel hf =>
        Search_total_next bt Start n st hFL (by omega) (fun i h1 h2 => by
          rcases h2 with h | h
          exacts [hin i h1 h, h.elim]) fuel (by omega)⟩
  · intro fuel st' v h
    exact Search_succInRange bt fuel Start End type st st' v hFL hne hmode
      (by rw [hlog]; intro p x hx; simp at hx) h

/-- Witness for C6: the `FirstSolution` search of `exDistinct` on two slots. -/
theorem succ_precondition_witness :
    ∃ st', Search exDistinct 20 0 2 SolutionType.FirstSolution (Machine.ofList [7, 7])
        = some (st', true) ∧
      ∀ p x, Event.succ p x ∈ st'.log →
        exDistinct.FirstValue ≤ x ∧ x < exDistinct.LastValue :=
  ⟨_, rfl, (succ_precondition exDistinct 0 2 SolutionType.FirstSolution (Machine.ofList [7, 7])
    (by decide) (by decide) rfl (Or.inl ⟨rfl, fun _ => rfl⟩)).2 20 _ true rfl⟩

/-- C7, as stated, fails: with `First = 0 < Last = 1` the engine `exLastOnly`, which accepts the
one-slot buffer `[1]` only, returns `Valid = true` with the slot holding `Last`. -/
theorem last_value_returned :
    exLastOnly.FirstValue < exLastOnly.LastValue ∧
      ∃ st', Search exLastOnly 20 0 1 SolutionType.FirstSolution (Machine.ofList [0])
          = some (st', true) ∧
        ∃ i, 0 ≤ i ∧ i < 1 ∧ st'.mem i = exLastOnly.LastValue :=
  ⟨by decide, _, rfl, 0, by decide, by decide, by decide⟩

/-- C7, amended: `Last` is the last value of the domain and is tried like any other, so it is
kept out of a returned solution only by the predicate. For `First < Last`, a predicate that
rejects every non-empty range whose last slot holds `Last`, a non-empty range and either mode (a
`NextSolution` search being entered with no slot of the range holding `Last`), when `operator()`
returns `Valid = true` no slot of the returned solution holds `Last`. -/
theorem last_value_kept_out (bt : BackTrack) (fuel : Nat) (Start End : Int)
    (type : SolutionType) (st st' : Machine) (_ : bt.FirstValue < bt.LastValue)
    (hne : Start < End)
    (hrej : ∀ m E, Start < E → m (E - 1) = bt.LastValue → bt.IsValid m Start E = false)
    (hin : type = SolutionType.NextSolution →
      ∀ i, Start ≤ i → i < End → st.mem i ≠ bt.LastValue)
    (h : Search bt fuel Start End type st = some (st', true)) :
    ∀ i, Start ≤ i → i < End → st'.mem i ≠ bt.LastValue :=
  Search_no_last bt fuel Start End type st st' hne hrej hin h

/-- Witness for the amended C7: the `FirstSolution` search of `exNoLast` on two slots. -/
theorem last_value_kept_out_witness :
    ∃ st', Search exNoLast 20 0 2 SolutionType.FirstSolution (Machine.ofList [5, 5])
        = some (st', true) ∧
      ∀ i, 0 ≤ i → i < 2 → st'.mem i ≠ exNoLast.LastValue :=
  ⟨_, rfl, last_value_kept_out exNoLast 20 0 2 SolutionType.FirstSolution
    (Machine.ofList [5, 5]) _ (by decide) (by decide)
    (fun m E _ hm => by
      have h1 : m (E - 1) = 1 := hm
      simp [exNoLast, h1])
    (fun ht => SolutionType.noConfusion ht) rfl⟩

/-- C8. Termination: for `First ≤ Last` and a non-empty range, `operator()` returns (with
`Valid = true` or `Valid = false`) on every fuel from some bound on, in `FirstSolution` mode when
the predicate accepts the empty range and in `NextSolution` mode when every slot of the range
lies between `First` and `Last` on entry. -/
theorem search_terminates (bt : BackTrack) (Start End : Int) (type : SolutionType)
    (st : Machine) (hFL : bt.FirstValue ≤ bt.LastValue) (hne : Start < End)
    (hmode : (type = SolutionType.FirstSolution ∧ ∀ m, bt.IsValid m Start Start = true) ∨
      (type = SolutionType.NextSolution ∧
        ∀ i, Start ≤ i → i < End → bt.FirstValue ≤ st.mem i ∧ st.mem i ≤ bt.LastValue)) :
    ∃ fuel0, ∀ fuel, fuel0 ≤ fuel →
      ∃ st' v, Search bt fuel Start End type st = some (st', v) := by
  obtain ⟨n, rfl⟩ : ∃ n : Nat, End = Start + (n : Int) := ⟨(End - Start).toNat, by omega⟩
  rcases hmode with ⟨rfl, hemp⟩ | ⟨rfl, hin⟩
  · refine ⟨domainSize bt + n + treeSize (domainSize bt) n + 1, fun fuel hf => ?_⟩
    obtain ⟨⟨st', v⟩, h⟩ := Search_total_first bt Start n st hFL (by omega) hemp fuel (by omega)
    exact ⟨st', v, h⟩
  · refine ⟨domainSize bt + n + todo bt Start n st.mem (Start + (n : Int)) + 1,
      fun fuel hf => ?_⟩
    obtain ⟨⟨st', v⟩, h⟩ := Search_total_next bt Start n st hFL (by omega) (fun i h1 h2 => by
      rcases h2 with h | h
      exacts [hin i h1 h, h.elim]) fuel (by omega)
    exact ⟨st', v, h⟩

/-- Witness for C8: `exDistinct` on two slots, in `FirstSolution` mode and in `NextSolution`
mode entered on `[0, 1]`. -/
theorem search_terminates_witness :
    (∃ fuel0, ∀ fuel, fuel0 ≤ fuel → ∃ st' v,
        Search exDistinct fuel 0 2 SolutionType.FirstSolution (Machine.ofList [7, 7])
          = some (st', v)) ∧
      (∃ fuel0, ∀ fuel, fuel0 ≤ fuel → ∃ st' v,
        Search exDistinct fuel 0 2 SolutionType.NextSolution (Machine.ofList [0, 1])
          = some (st', v)) :=
  ⟨search_terminates exDistinct 0 2 SolutionType.FirstSolution (Machine.ofList [7, 7])
      (by decide) (by decide) (Or.inl ⟨rfl, fun _ => rfl⟩),
    search_terminates exDistinct 0 2 SolutionType.NextSolution (Machine.ofList [0, 1])
      (by decide) (by decide) (Or.inr ⟨rfl, fun i h1 h2 => by
        have : i = 0 ∨ i = 1 := by omega
        rcases this with rfl | rfl <;> decide⟩)⟩

/-- C9. Degenerate range: if `Start ≥ End` then `operator()`, in either mode and on any fuel,
returns `Valid = false` with the machine it was given: no slot is changed and the log is the
same, so no slot was read or written and neither `IsValid` nor `Succ` was called. -/
theorem degenerate_range (bt : BackTrack) (fuel : Nat) (Start End : Int) (type : SolutionType)
    (st : Machine) (h : Start ≥ End) :
    Search bt fuel Start End type st = some (st, false) := by
  unfold Search
  rw [if_pos h]

/-- Witness for C9: the empty range `[2, 2)`. -/
theorem degenerate_range_witness :
    (2 : Int) ≥ 2 ∧
      Search exDistinct 0 2 2 SolutionType.FirstSolution (Machine.ofList [7, 7])
        = some (Machine.ofList [7, 7], false) :=
  ⟨by decide, degenerate_range exDistinct 0 2 2 SolutionType.FirstSolution _ (by decide)⟩

/-- C10. Range invariant: for `First ≤ Last`, every slot of a solution returned by a successful
`FirstSolution` call lies between `First` and `Last` inclusive; and a `NextSolution` call entered
with every slot of `[Start, End)` between `First` and `Last` returns on enough fuel, and whenever
it returns, with `Valid` true or false, every slot of `[Start, End)` is still between `First` and
`Last`. -/
theorem range_invariant (bt : BackTrack) (Start End : Int) (st : Machine)
    (hFL : bt.FirstValue ≤ bt.LastValue) :
    (∀ fuel st', Search bt fuel Start End SolutionType.FirstSolution st = some (st', true) →
        ∀ i, Start ≤ i → i < End → bt.FirstValue ≤ st'.mem i ∧ st'.mem i ≤ bt.LastValue) ∧
      ((∀ i, Start ≤ i → i < End → bt.FirstValue ≤ st.mem i ∧ st.mem i ≤ bt.LastValue) →
        (∃ fuel0, ∀ fuel, fuel0 ≤ fuel →
          ∃ r, Search bt fuel Start End SolutionType.NextSolution st = some r) ∧
        ∀ fuel st' v, Search bt fuel Start End SolutionType.NextSolution st = some (st', v) →
          ∀ i, Start ≤ i → i < End →
            bt.FirstValue ≤ st'.mem i ∧ st'.mem i ≤ bt.LastValue) := by
  by_cases hne : Start < End
  · refine ⟨fun fuel st' h i hi1 hi2 => ?_, fun hin => ⟨?_, fun fuel st' v h i hi1 hi2 => ?_⟩⟩
    · exact Search_within bt fuel Start End _ st st' true (fun _ => False) hFL hne
        (fun j _ hj2 => by
          rcases hj2 with hf | ⟨ht, -⟩
          exacts [hf.elim, SolutionType.noConfusion ht]) h i hi1 (Or.inr ⟨rfl, hi2⟩)
    · obtain ⟨n, rfl⟩ : ∃ n : Nat, End = Start + (n : Int) := ⟨(End - Start).toNat, by omega⟩
      exact ⟨domainSize bt + n + todo bt Start n st.mem (Start + (n : Int)) + 1, fun fuel hf =>
        Search_total_next bt Start n st hFL (by omega) (fun i h1 h2 => by
          rcases h2 with h | h
          exacts [hin i h1 h, h.elim]) fuel (by omega)⟩
    · exact Search_within bt fuel Start End _ st st' v (fun j => j < End) hFL hne
        (fun j hj1 hj2 => by
          rcases hj2 with hlt | ⟨-, hlt⟩
          exacts [hin j hj1 hlt, hin j hj1 hlt]) h i hi1 (Or.inl hi2)
  · exact ⟨fun _ _ _ i hi1 hi2 => absurd (lt_of_le_of_lt hi1 hi2) hne,
      fun _ => ⟨⟨0, fun fuel _ => ⟨_, by unfold Search; rw [if_pos (by omega)]⟩⟩,
        fun _ _ _ _ i hi1 hi2 => absurd (lt_of_le_of_lt hi1 hi2) hne⟩⟩

/-- Witness for C10: `exDistinct` on two slots, in `FirstSolution` mode and in `NextSolution`
mode entered on `[0, 1]`. -/
theorem range_invariant_witness :
    (∃ st', Search exDistinct 20 0 2 SolutionType.FirstSolution (Machine.ofList [7, 7])
        = some (st', true) ∧
      ∀ i, 0 ≤ i → i < 2 →
        exDistinct.FirstValue ≤ st'.mem i ∧ st'.mem i ≤ exDistinct.LastValue) ∧
      (∃ st' v, Search exDistinct 20 0 2 SolutionType.NextSolution (Machine.ofList [0, 1])
          = some (st', v) ∧
        ∀ i, 0 ≤ i → i < 2 →
          exDistinct.FirstValue ≤ st'.mem i ∧ st'.mem i ≤ exDistinct.LastValue) :=
  ⟨⟨_, rfl, (range_invariant exDistinct 0 2 (Machine.ofList [7, 7]) (by decide)).1 20 _ rfl⟩,
    ⟨_, true, rfl, ((range_invariant exDistinct 0 2 (Machine.ofList [0, 1]) (by decide)).2
      (fun i h1 h2 => by
        have : i = 0 ∨ i = 1 := by omega
        rcases this with rfl | rfl <;> decide)).2 20 _ true rfl⟩⟩

/-- C11, as stated, fails: with `First = 0`, `Last = 2` and pairwise distinct slots, no fuel
makes the `FirstSolution` call return `[0, 1]`, the following `NextSolution` call return
`[1, 0]` and the call after that return `Valid = false`; the second call returns `[0, 2]`. -/
theorem example1_as_stated_fails :
    ¬ ∃ (fuel : Nat) (s1 s2 s3 : Machine),
      Search exDistinct fuel 0 2 SolutionType.FirstSolution (Machine.ofList [7, 7])
          = some (s1, true) ∧ slots s1.mem 0 2 = [0, 1] ∧
        Search exDistinct fuel 0 2 SolutionType.NextSolution s1 = some (s2, true) ∧
        slots s2.mem 0 2 = [1, 0] ∧
        Search exDistinct fuel 0 2 SolutionType.NextSolution s2 = some (s3, false) := by
  have run : ∃ t1 t2 : Machine,
      Search exDistinct 20 0 2 SolutionType.FirstSolution (Machine.ofList [7, 7])
          = some (t1, true) ∧
        Search exDistinct 20 0 2 SolutionType.NextSolution t1 = some (t2, true) ∧
        slots t2.mem 0 2 = [0, 2] := ⟨_, _, rfl, rfl, by decide⟩
  rintro ⟨fuel, s1, s2, s3, h1, -, h2, h3, -⟩
  obtain ⟨t1, t2, r1, r2, r3⟩ := run
  have e1 := Search_fuel_irrelevant exDistinct fuel 20 0 2 _ _ _ _ h1 r1
  simp only [Prod.mk.injEq, and_true] at e1
  subst e1
  have e2 := Search_fuel_irrelevant exDistinct fuel 20 0 2 _ _ _ _ h2 r2
  simp only [Prod.mk.injEq, and_true] at e2
  subst e2
  rw [h3] at r3
  exact absurd r3 (by decide)

/-- C11, amended: with `First = 0`, `Last = 2`, a buffer of length 2 and `IsValid` = "the slots
are pairwise distinct", the `FirstSolution` call returns `Valid = true` with buffer `[0, 1]`,
the following `NextSolution` calls return `Valid = true` with buffers `[0, 2]`, `[1, 0]`,
`[1, 2]`, `[2, 0]`, `[2, 1]` in this order, and the call after that returns `Valid = false`:
`Last = 2` is a value of the domain. The sequence `[0, 1]`, `[1, 0]`, `Valid = false` is what the
engine returns with `Last = 1`. -/
theorem example1_enumeration :
    (∃ s1 s2 s3 : Machine,
      Search exDistinct 20 0 2 SolutionType.FirstSolution (Machine.ofList [7, 7])
          = some (s1, true) ∧ slots s1.mem 0 2 = [0, 1] ∧
        Search exDistinct 20 0 2 SolutionType.NextSolution s1 = some (s2, true) ∧
        slots s2.mem 0 2 = [0, 2] ∧
        Search exDistinct 20 0 2 SolutionType.NextSolution s2 = some (s3, true) ∧
        slots s3.mem 0 2 = [1, 0]) ∧
      enumerate exDistinct 20 0 2 10 SolutionType.FirstSolution (Machine.ofList [7, 7])
        = some [[0, 1], [0, 2], [1, 0], [1, 2], [2, 0], [2, 1]] ∧
      enumerate exBinary 20 0 2 10 SolutionType.FirstSolution (Machine.ofList [7, 7])
        = some [[0, 1], [1, 0]] :=
  ⟨⟨_, _, _, rfl, by decide, rfl, by decide, rfl, by decide⟩, by decide, by decide⟩

/-- C12, as stated, fails: with `First = Last = 0`, one slot and a predicate that accepts every
list, the `FirstSolution` call returns `Valid = true` with the slot holding `0`, and no fuel
makes it return `Valid = false`. -/
theorem empty_domain_returns_true :
    (∃ st', Search exSingle 20 0 1 SolutionType.FirstSolution (Machine.ofList [5])
        = some (st', true) ∧ slots st'.mem 0 1 = [0]) ∧
      ∀ fuel st', Search exSingle fuel 0 1 SolutionType.FirstSolution (Machine.ofList [5])
        ≠ some (st', false) := by
  have run : ∃ st', Search exSingle 20 0 1 SolutionType.FirstSolution (Machine.ofList [5])
      = some (st', true) ∧ slots st'.mem 0 1 = [0] := ⟨_, rfl, by decide⟩
  refine ⟨run, fun fuel st' hc => ?_⟩
  obtain ⟨st2, h2, -⟩ := run
  have := Search_fuel_irrelevant exSingle fuel 20 0 1 _ _ _ _ hc h2
  simp at this

/-- C12, amended: `First = Last = v` is the domain of the single value `v`. For every length
`n ≥ 1` and every predicate on the slots of the range that accepts the empty list, `operator()`
in `FirstSolution` mode returns on enough fuel; it returns `Valid = true` exactly when the
predicate accepts every non-empty prefix of the buffer of `n` slots all holding `v`, and then
with `v` in every slot; otherwise it returns `Valid = false`. -/
theorem single_value_domain (v : Int) (P : List Int → Bool) (Start : Int) (n : Nat)
    (st : Machine) (hn : 1 ≤ n) (hempty : P [] = true) :
    ∃ fuel0, ∀ fuel, fuel0 ≤ fuel →
      ∃ st' b, Search ⟨v, v, onSlots P⟩ fuel Start (Start + (n : Int))
          SolutionType.FirstSolution st = some (st', b) ∧
        (b = true ↔ ∀ l, 1 ≤ l → l ≤ n → P (List.replicate l v) = true) ∧
        (b = true → slots st'.mem Start n = List.replicate n v) := by
  have hemp : ∀ m, (BackTrack.mk v v (onSlots P)).IsValid m Start Start = true :=
    fun m => by
      rw [show (BackTrack.mk v v (onSlots P)).IsValid = onSlots P from rfl,
        onSlots_empty, hempty]
  refine ⟨domainSize ⟨v, v, onSlots P⟩ + n + treeSize (domainSize ⟨v, v, onSlots P⟩) n + 1,
    fun fuel hf => ?_⟩
  obtain ⟨⟨st', b⟩, hs⟩ := Search_total_first ⟨v, v, onSlots P⟩ Start n st (le_refl _) hn hemp
    fuel (by omega)
  have all_v : b = true → ∀ l, l ≤ n → slots st'.mem Start l = List.replicate l v := by
    intro hb l hl
    subst hb
    refine List.eq_replicate_iff.mpr ⟨slots_length _ _ _, fun x hx => ?_⟩
    obtain ⟨i, hi1, hi2, rfl⟩ := (slots_mem_iff _ _ _ _).mp hx
    have := Search_within ⟨v, v, onSlots P⟩ fuel Start _ _ st st' true (fun _ => False)
      (le_refl _) (by omega) (fun j _ hj2 => by
        rcases hj2 with hf | ⟨ht, -⟩
        exacts [hf.elim, SolutionType.noConfusion ht]) hs i hi1 (Or.inr ⟨rfl, by omega⟩)
    exact le_antisymm this.2 this.1
  refine ⟨st', b, hs, ⟨fun hb l hl1 hl2 => ?_, fun hall => ?_⟩, fun hb => all_v hb n (le_refl _)⟩
  · subst hb
    have hval := Search_first_validated ⟨v, v, onSlots P⟩ fuel Start (Start + (n : Int)) st st'
      (by omega) (RangeOnly_onSlots v v P Start) hs (Start + (l : Int)) (by omega) (by omega)
    rw [show (BackTrack.mk v v (onSlots P)).IsValid = onSlots P from rfl, onSlots_full,
      all_v rfl l hl2] at hval
    exact hval
  · by_contra hb
    have hb' : b = false := by simpa using hb
    obtain ⟨-, k2⟩ := Search_first_least ⟨v, v, onSlots P⟩ fuel Start _ st st' b (by omega)
      hemp hs
    refine k2 hb' _ (Viable_memOf v v P Start n (List.replicate n v) (List.length_replicate _ _)
      (fun x hx => by rw [(List.mem_replicate.mp hx).2]; exact ⟨le_refl _, le_refl _⟩)
      (fun l hl => ?_))
    rw [List.take_replicate, min_eq_left hl]
    cases l with
    | zero => exact hempty
    | succ l' => exact hall (l' + 1) (by omega) hl

/-- Witness for the amended C12: the value `0`, three slots, every list accepted. -/
theorem single_value_domain_witness :
    1 ≤ 3 ∧ ∃ fuel0, ∀ fuel, fuel0 ≤ fuel →
      ∃ st' b, Search ⟨0, 0, onSlots (fun _ => true)⟩ fuel 0 (0 + ((3 : Nat) : Int))
          SolutionType.FirstSolution (Machine.ofList [5, 5, 5]) = some (st', b) ∧
        (b = true ↔ ∀ l, 1 ≤ l → l ≤ 3 →
          (fun _ => true) (List.replicate l (0 : Int)) = true) ∧
        (b = true → slots st'.mem 0 3 = List.replicate 3 0) :=
  ⟨by decide, single_value_domain 0 (fun _ => true) 0 3 (Machine.ofList [5, 5, 5]) (by decide)
    rfl⟩

/-- C14. Algorithm A: on a non-empty range `[Start, End)` whose last slot holds `v ≤ Last`,
`NextValidValue` returns on enough fuel and leaves every slot other than the last unchanged;
if some `w` with `v ≤ w ≤ Last` in the last slot makes the range valid, it returns
`Valid = true` with the last slot holding the least such `w`; otherwise it returns
`Valid = false` with the last slot holding `Last`. -/
theorem next_valid_value_least (bt : BackTrack) (Start End : Int) (st : Machine)
    (_ : Start < End) (hv : st.mem (End - 1) ≤ bt.LastValue) :
    ∃ fuel0, ∀ fuel, fuel0 ≤ fuel →
      ∃ st1 b, NextValidValue bt Start End fuel st = some (st1, b) ∧
        (∀ i, i ≠ End - 1 → st1.mem i = st.mem i) ∧
        ((∃ w, st.mem (End - 1) ≤ w ∧ w ≤ bt.LastValue ∧
            bt.IsValid (poke st.mem (End - 1) w) Start End = true) →
          b = true ∧ st.mem (End - 1) ≤ st1.mem (End - 1) ∧
            st1.mem (End - 1) ≤ bt.LastValue ∧
            bt.IsValid (poke st.mem (End - 1) (st1.mem (End - 1))) Start End = true ∧
            ∀ u, st.mem (End - 1) ≤ u → u < st1.mem (End - 1) →
              bt.IsValid (poke st.mem (End - 1) u) Start End = false) ∧
        ((¬ ∃ w, st.mem (End - 1) ≤ w ∧ w ≤ bt.LastValue ∧
            bt.IsValid (poke st.mem (End - 1) w) Start End = true) →
          b = false ∧ st1.mem (End - 1) = bt.LastValue) := by
  refine ⟨(bt.LastValue - st.mem (End - 1)).toNat + 1, fun fuel hf => ?_⟩
  obtain ⟨⟨st1, b⟩, hn⟩ := NextValidValue_total bt Start End fuel st hv (by omega)
  obtain ⟨w0, hw1, hw2, hw3, hw4, hw5⟩ := NextValidValue_spec bt Start End fuel st st1 b hn
  have hle := NextValidValue_le bt Start End fuel st st1 b hn hv
  have hlast : st1.mem (End - 1) = w0 := by rw [hw2, poke_same]
  have hself : poke st.mem (End - 1) (st1.mem (End - 1)) = st1.mem := by rw [hlast, hw2]
  refine ⟨st1, b, hn, fun i hi => by rw [hw2, poke_other _ _ _ hi], ?_, ?_⟩
  · rintro ⟨w, hwv, hwL, hwok⟩
    cases b with
    | true =>
      refine ⟨rfl, by omega, hle, by rw [hself]; exact hw4 rfl, fun u hu1 hu2 => ?_⟩
      exact (hw3 u hu1 (by omega)).2
    | false =>
      obtain ⟨h5, h6⟩ := hw5 rfl
      rcases eq_or_lt_of_le hwL with he | hlt
      · rw [he, ← h5, ← hw2, h6] at hwok
        exact Bool.noConfusion hwok
      · rw [(hw3 w hwv (by omega)).2] at hwok
        exact Bool.noConfusion hwok
  · intro hno
    cases b with
    | true =>
      exact absurd ⟨st1.mem (End - 1), by omega, hle, by rw [hself]; exact hw4 rfl⟩ hno
    | false => exact ⟨rfl, by rw [hlast]; exact (hw5 rfl).1⟩

/-- Witness for C14: `exDistinct` on the range `[0, 0]`, whose last slot moves up to `1`. -/
theorem next_valid_value_least_witness :
    ((0 : Int) < 2 ∧ (Machine.ofList [0, 0]).mem (2 - 1) ≤ exDistinct.LastValue) ∧
      ∃ fuel0, ∀ fuel, fuel0 ≤ fuel →
        ∃ st1 b, NextValidValue exDistinct 0 2 fuel (Machine.ofList [0, 0]) = some (st1, b) ∧
          (∀ i, i ≠ 2 - 1 → st1.mem i = (Machine.ofList [0, 0]).mem i) ∧
          ((∃ w, (Machine.ofList [0, 0]).mem (2 - 1) ≤ w ∧ w ≤ exDistinct.LastValue ∧
              exDistinct.IsValid (poke (Machine.ofList [0, 0]).mem (2 - 1) w) 0 2 = true) →
            b = true ∧ (Machine.ofList [0, 0]).mem (2 - 1) ≤ st1.mem (2 - 1) ∧
              st1.mem (2 - 1) ≤ exDistinct.LastValue ∧
              exDistinct.IsValid (poke (Machine.ofList [0, 0]).mem (2 - 1) (st1.mem (2 - 1)))
                0 2 = true ∧
              ∀ u, (Machine.ofList [0, 0]).mem (2 - 1) ≤ u → u < st1.mem (2 - 1) →
                exDistinct.IsValid (poke (Machine.ofList [0, 0]).mem (2 - 1) u) 0 2 = false) ∧
          ((¬ ∃ w, (Machine.ofList [0, 0]).mem (2 - 1) ≤ w ∧ w ≤ exDistinct.LastValue ∧
              exDistinct.IsValid (poke (Machine.ofList [0, 0]).mem (2 - 1) w) 0 2 = true) →
            b = false ∧ st1.mem (2 - 1) = exDistinct.LastValue) :=
  ⟨⟨by decide, by decide⟩,
    next_valid_value_least exDistinct 0 2 (Machine.ofList [0, 0]) (by decide) (by decide)⟩

/-- C15. Algorithm B: on a non-empty range `[Start, End)`, `GotoUnvisitedNode` returns on
`End - Start` units of fuel; `Found` is true if and only if some slot of the range differs from
`Last`; when `Found` is true the new `End` is one past the rightmost slot `j` that differed
from `Last`, slot `j` has been incremented once and every other slot is unchanged; when `Found`
is false no slot is changed. -/
theorem goto_unvisited_node_rightmost (bt : BackTrack) (fuel : Nat) (Start End : Int)
    (st : Machine) (hne : Start < End) (hf : (End - Start).toNat ≤ fuel) :
    ∃ st2 End2 Found, GotoUnvisitedNode bt fuel Start End st = some (st2, End2, Found) ∧
      (Found = true ↔ ∃ i, Start ≤ i ∧ i < End ∧ st.mem i ≠ bt.LastValue) ∧
      (Found = true →
        Start < End2 ∧ End2 ≤ End ∧ st.mem (End2 - 1) ≠ bt.LastValue ∧
          (∀ i, End2 ≤ i → i < End → st.mem i = bt.LastValue) ∧
          st2.mem (End2 - 1) = st.mem (End2 - 1) + 1 ∧
          ∀ i, i ≠ End2 - 1 → st2.mem i = st.mem i) ∧
      (Found = false → st2.mem = st.mem) := by
  obtain ⟨⟨st2, End2, Found⟩, hg⟩ := GotoUnvisitedNode_total bt fuel Start End st hne hf
  obtain ⟨g1, g2, g3, g4, g5⟩ := GotoUnvisitedNode_spec bt fuel Start End st st2 End2 Found hg
  have hE := g2 hne
  refine ⟨st2, End2, Found, hg, ⟨fun hF => ⟨End2 - 1, by omega, by omega, (g4 hF).1⟩, ?_⟩,
    fun hF => ⟨hE, g1, (g4 hF).1, g3, by rw [(g4 hF).2, poke_same],
      fun i hi => by rw [(g4 hF).2, poke_other _ _ _ hi]⟩,
    fun hF => (g5 hF).2.1⟩
  rintro ⟨i, hi1, hi2, hi3⟩
  by_contra hF
  have hF' : Found = false := by simpa using hF
  obtain ⟨g6, -, g7⟩ := g5 hF'
  have hS := g7 hne
  by_cases hc : i = Start
  · subst hc
    apply hi3
    rw [← g6]
    congr 1
    omega
  · exact hi3 (g3 i (by omega) hi2)

/-- Witness for C15: on `[0, 2]` with `Last = 2` the rightmost slot below `Last` is slot `0`. -/
theorem goto_unvisited_node_rightmost_witness :
    ((0 : Int) < 2 ∧ ((2 : Int) - 0).toNat ≤ 5) ∧
      ∃ st2 End2 Found,
        GotoUnvisitedNode exDistinct 5 0 2 (Machine.ofList [0, 2]) = some (st2, End2, Found) ∧
        (Found = true ↔
          ∃ i, 0 ≤ i ∧ i < 2 ∧ (Machine.ofList [0, 2]).mem i ≠ exDistinct.LastValue) ∧
        (Found = true →
          0 < End2 ∧ End2 ≤ 2 ∧ (Machine.ofList [0, 2]).mem (End2 - 1) ≠ exDistinct.LastValue ∧
            (∀ i, End2 ≤ i → i < 2 → (Machine.ofList [0, 2]).mem i = exDistinct.LastValue) ∧
            st2.mem (End2 - 1) = (Machine.ofList [0, 2]).mem (End2 - 1) + 1 ∧
            ∀ i, i ≠ End2 - 1 → st2.mem i = (Machine.ofList [0, 2]).mem i) ∧
        (Found = false → st2.mem = (Machine.ofList [0, 2]).mem) :=
  ⟨⟨by decide, by decide⟩,
    goto_unvisited_node_rightmost exDistinct 5 0 2 (Machine.ofList [0, 2]) (by decide)
      (by decide)⟩

/-- C16. Bounds safety: on a non-empty range, in `NextSolution` mode and in `FirstSolution`
mode with a predicate that accepts the empty range, every slot that `operator()` reads, writes
or hands to `Succ` lies inside the caller's range `[Start, End)`, and every range it hands to
`IsValid` starts at `Start` and ends at or before `End`; this holds of the machine reached on
any fuel, whether the call has returned or not, and so of the machine returned. -/
theorem bounds_safety (bt : BackTrack) (fuel : Nat) (Start End : Int) (type : SolutionType)
    (st : Machine) (hne : Start < End) (hlog : st.log = [])
    (hmode : type = SolutionType.FirstSolution → ∀ m, bt.IsValid m Start Start = true) :
    Inside Start End (SearchReached bt fuel Start End type st).log ∧
      ∀ st' v, Search bt fuel Start End type st = some (st', v) →
        Inside Start End st'.log := by
  have key := SearchReached_inside bt fuel Start End type st hne hmode
    (by rw [hlog]; intro e he; simp at he)
  refine ⟨key, fun st' v h => ?_⟩
  rw [Search_reached bt fuel Start End type st st' v h] at key
  exact key

/-- Witness for C16: the `FirstSolution` search of `exDistinct` on two slots. -/
theorem bounds_safety_witness :
    (0 : Int) < 2 ∧
      ∃ st', Search exDistinct 20 0 2 SolutionType.FirstSolution (Machine.ofList [7, 7])
          = some (st', true) ∧ Inside 0 2 st'.log :=
  ⟨by decide, _, rfl, (bounds_safety exDistinct 20 0 2 SolutionType.FirstSolution
    (Machine.ofList [7, 7]) (by decide) rfl (fun _ _ => rfl)).2 _ true rfl⟩

/-- C17. FirstSolution starts afresh: for every `First`, `Last`, length `n ≥ 1` and validity
predicate that depends only on the slots of the range it is given and accepts the empty range,
two `FirstSolution` calls on machines `s` and `t` with arbitrary contents agree: whenever the
one returns, the other returns on the same fuel with the same `Valid` flag and, when
`Valid = true`, with the same contents of `[Start, End)`. -/
theorem first_solution_afresh (bt : BackTrack) (fuel : Nat) (Start : Int) (n : Nat)
    (s t s' : Machine) (v : Bool) (hn : 1 ≤ n) (hloc : RangeOnly bt Start)
    (hempty : ∀ m, bt.IsValid m Start Start = true)
    (h : Search bt fuel Start (Start + (n : Int)) SolutionType.FirstSolution s
      = some (s', v)) :
    ∃ t', Search bt fuel Start (Start + (n : Int)) SolutionType.FirstSolution t
        = some (t', v) ∧
      (v = true → slots s'.mem Start n = slots t'.mem Start n) := by
  obtain ⟨t', ht, hag⟩ := Search_first_sim bt fuel Start _ s t s' v (by omega) hloc hempty h
  exact ⟨t', ht, fun hv => slots_eq_of_Agree Start n _ _ (hag hv)⟩

/-- Witness for C17: `exDistinct` started on `[7, 7]` and on `[3, 9]`. -/
theorem first_solution_afresh_witness :
    ∃ s', Search exDistinct 20 0 (0 + ((2 : Nat) : Int)) SolutionType.FirstSolution
        (Machine.ofList [7, 7]) = some (s', true) ∧
      ∃ t', Search exDistinct 20 0 (0 + ((2 : Nat) : Int)) SolutionType.FirstSolution
          (Machine.ofList [3, 9]) = some (t', true) ∧
        (true = true → slots s'.mem 0 2 = slots t'.mem 0 2) :=
  ⟨_, rfl, first_solution_afresh exDistinct 20 0 2 (Machine.ofList [7, 7])
    (Machine.ofList [3, 9]) _ true (by decide) (RangeOnly_onSlots 0 2 _ 0) (fun _ => rfl) rfl⟩

end BackTrack
